import Mathlib

/-!
Verification development for the CrewSplit ledger-verification script
(`scripts/verify-math.py`).

The two core functions are embedded shallowly:

* `normalize_shares` — deterministic share normalization for one expense
  (four allocation strategies: equal / percentage / weight / amount);
* `resolve_debts` — greedy two-pointer debt settlement.

Modelling conventions:

* Python `int` is `Int`; Python `float` share values are modelled as exact
  rationals `ℚ` (the spec describes the apportionment over "exact real-valued
  amounts"; `math.ulp(1.0)` is `2⁻⁵²`).
* Python `raise ValueError` / `IndexError` become an `Except NormError` result
  with one constructor per raise site.
* Python dicts are association lists in insertion order; `participants.get`
  with a default is `dictGet`.
* Python's stable `sort` is `List.insertionSort` with a reflexive total
  relation, which is stable in the same sense.
-/

/-- Errors of the normalizer.  The first six constructors correspond to the
`raise ValueError` sites of the script (its "ValidationError" taxonomy); the
last one models the `IndexError` a Python list subscript raises when the
remainder-distribution loop runs past `fractional_parts`. -/
inductive NormError where
  | mismatchedShareType
  | percentSumOutOfTolerance
  | nonPositiveWeight
  | missingAmounts
  | amountSumMismatch
  | unknownShareType
  | indexError
deriving DecidableEq

/-- Whether an error corresponds to one of the `ValueError` ("ValidationError")
raise sites of the script. -/
def NormError.isValidation : NormError → Bool
  | .indexError => false
  | _ => true

/-- One split record: `participantId`, `shareType` tag, numeric `share`
(percentage points or weight units, modelled as an exact rational) and the
optional explicit integer `amount`. -/
structure Split where
  participantId : String
  shareType : String
  share : ℚ
  amount : Option Int
deriving DecidableEq

/-- One settlement `{'from': ..., 'to': ..., 'amount': ...}` produced by
`resolve_debts`; `from_`/`to` are display names. -/
structure Settlement where
  from_ : String
  to_ : String
  amount : Int
deriving DecidableEq

deriving instance DecidableEq for Except

/-- `tolerance = 0.01 + (math.ulp(1.0) * 100)` of `_normalize_percentage`,
with `math.ulp(1.0) = 2⁻⁵²`. -/
def tolerance : ℚ := 1/100 + (1/2^52) * 100

/-- `result[i] += 1` on a Python list (in range at every reachable call). -/
def incAt : Nat → List Int → List Int
  | _, [] => []
  | 0, x :: xs => (x + 1) :: xs
  | n+1, x :: xs => x :: incAt n xs

/-- The remainder-distribution loop
`for i in range(remainder): result[fractional_parts[i]["index"]] += 1`:
walk the sorted index list, adding one unit `r` times; running past the end of
the index list is Python's `IndexError`. -/
def applyExtras : List Nat → Nat → List Int → Except NormError (List Int)
  | _, 0, res => .ok res
  | [], _+1, _ => .error .indexError
  | i :: rest, r+1, res => applyExtras rest r (incAt i res)

/-- `_normalize_equal(count, total)`: `base = total // count` (Python floor
division), `remainder = total - base * count`, start from `[base] * count` and
add one unit to the first `remainder` entries. -/
def _normalize_equal (count : Nat) (total : Int) : List Int :=
  let base := Int.fdiv total count
  let remainder := total - base * count
  (List.range remainder.toNat).foldl (fun res i => incAt i res) (List.replicate count base)

/-- Python's sort key `(-x["fraction"], x["index"])` on the fractional-part
records, as a total preorder: larger fraction first, ties by ascending index. -/
def fracOrder (x y : Nat × ℚ) : Prop :=
  y.2 < x.2 ∨ (x.2 = y.2 ∧ x.1 ≤ y.1)

instance : DecidableRel fracOrder := fun x y =>
  inferInstanceAs (Decidable (_ ∨ _))

/-- `base_amounts = [math.floor(a) for a in exact_amounts]`. -/
def baseAmounts (exact_amounts : List ℚ) : List Int :=
  exact_amounts.map (fun a => ⌊a⌋)

/-- `fractional_parts = [{"index": i, "fraction": exact[i] - base[i]} ...]`. -/
def fracPairs (exact_amounts : List ℚ) : List (Nat × ℚ) :=
  (List.range exact_amounts.length).map
    (fun i => (i, exact_amounts.getD i 0 - (((baseAmounts exact_amounts).getD i 0 : Int) : ℚ)))

/-- `fractional_parts.sort(key=lambda x: (-x["fraction"], x["index"]))`. -/
def sortedFracs (exact_amounts : List ℚ) : List (Nat × ℚ) :=
  List.insertionSort fracOrder (fracPairs exact_amounts)

/-- The largest-remainder apportionment shared verbatim by
`_normalize_percentage` and `_normalize_weight`: floor the exact amounts, sort
the fractional parts by `(-fraction, index)`, and distribute
`remainder = total - sum(bases)` extra units in that order. -/
def apportion (exact_amounts : List ℚ) (total : Int) : Except NormError (List Int) :=
  applyExtras ((sortedFracs exact_amounts).map Prod.fst)
    (total - (baseAmounts exact_amounts).sum).toNat (baseAmounts exact_amounts)

/-- `_normalize_percentage(stable_splits, total)`: validate the percentage sum
against `tolerance`, then compute exact amounts `(share / 100) * total` and
apportion by largest remainder. -/
def _normalize_percentage (stable_splits : List Split) (total : Int) :
    Except NormError (List Int) :=
  let total_percentage : ℚ := (stable_splits.map (fun s => s.share)).sum
  if |total_percentage - 100| > tolerance then
    .error .percentSumOutOfTolerance
  else
    apportion (stable_splits.map (fun s => s.share / 100 * total)) total

/-- `_normalize_weight(stable_splits, total)`: validate a positive total
weight, then compute exact amounts `(share / total_weight) * total` and
apportion by largest remainder. -/
def _normalize_weight (stable_splits : List Split) (total : Int) :
    Except NormError (List Int) :=
  let total_weight : ℚ := (stable_splits.map (fun s => s.share)).sum
  if total_weight ≤ 0 then
    .error .nonPositiveWeight
  else
    apportion (stable_splits.map (fun s => s.share / total_weight * total)) total

/-- `_normalize_amount(stable_splits, total)`: all splits must carry explicit
amounts and those amounts must sum exactly to `total`. -/
def _normalize_amount (stable_splits : List Split) (total : Int) :
    Except NormError (List Int) :=
  if (stable_splits.filter (fun s => s.amount.isNone)).length ≠ 0 then
    .error .missingAmounts
  else
    let amounts := stable_splits.map (fun s => s.amount.getD 0)
    if amounts.sum ≠ total then
      .error .amountSumMismatch
    else
      .ok amounts

/-- The stable canonical ordering key of `normalize_shares`:
`(split.participantId, originalIndex)`, lexicographically. -/
def splitLE (a b : Nat × Split) : Prop :=
  a.2.participantId < b.2.participantId ∨
    (a.2.participantId = b.2.participantId ∧ a.1 ≤ b.1)

instance : DecidableRel splitLE := fun a b =>
  inferInstanceAs (Decidable (_ ∨ _))

/-- `sorted([{"split": s, "originalIndex": i} ...], key=(participantId, i))`:
the splits paired with their original positions, in canonical order. -/
def stableEnum (splits : List Split) : List (Nat × Split) :=
  List.insertionSort splitLE splits.enum

/-- Scatter the canonically-ordered amounts back to the caller's positions:
`normalized = [0]*len(splits); normalized[stable[k].originalIndex] = amts[k]`. -/
def scatter (stable : List (Nat × Split)) (amounts : List Int) (n : Nat) : List Int :=
  ((stable.map Prod.fst).zip amounts).foldl (fun acc p => acc.set p.1 p.2)
    (List.replicate n 0)

/-- The per-`shareType` dispatch of `normalize_shares`. -/
def branchNormalize (share_type : String) (stable_splits : List Split) (total : Int) :
    Except NormError (List Int) :=
  if share_type = "equal" then .ok (_normalize_equal stable_splits.length total)
  else if share_type = "percentage" then _normalize_percentage stable_splits total
  else if share_type = "weight" then _normalize_weight stable_splits total
  else if share_type = "amount" then _normalize_amount stable_splits total
  else .error .unknownShareType

/-- `normalize_shares(splits, expense_amount)`: empty input yields `[]`; a zero
total yields all zeros without validation; otherwise all splits must agree on
`shareType`, the splits are re-sorted into canonical order, normalized per
type, and the results scattered back to the input positions. -/
def normalize_shares (splits : List Split) (expense_amount : Int) :
    Except NormError (List Int) :=
  match splits with
  | [] => .ok []
  | s0 :: _ =>
    if expense_amount = 0 then .ok (List.replicate splits.length 0)
    else if splits.all (fun s => s.shareType == s0.shareType) then
      (branchNormalize s0.shareType ((stableEnum splits).map Prod.snd) expense_amount).map
        (fun amts => scatter (stableEnum splits) amts splits.length)
    else .error .mismatchedShareType

/-- `participants.get(key, default)` on the id → display-name dict. -/
def dictGet (m : List (String × String)) (k dflt : String) : String :=
  match m.find? (fun p => p.1 == k) with
  | some p => p.2
  | none => dflt

/-- Sum of the positive parts of the creditor balances; part of the
termination measure of `settleLoop`. -/
def creditTotal (cs : List (String × Int)) : Nat :=
  (cs.map (fun c => c.2.toNat)).sum

/-- The greedy two-pointer loop of `resolve_debts`: match the current debtor
against the current creditor, settle `min(abs(debtor), creditor)`, emit one
settlement, and advance whichever side dropped below one unit (the advancing
pointers are modelled by consuming list heads, re-pushing a head that still
carries balance). -/
def settleLoop (participants : List (String × String)) :
    List (String × Int) → List (String × Int) → List Settlement
  | [], _ => []
  | _ :: _, [] => []
  | d :: ds, c :: cs =>
    { from_ := dictGet participants d.1 "Unknown"
      to_ := dictGet participants c.1 "Unknown"
      amount := min |d.2| c.2 } ::
      settleLoop participants
        (if |d.2 + min |d.2| c.2| < 1 then ds else (d.1, d.2 + min |d.2| c.2) :: ds)
        (if c.2 - min |d.2| c.2 < 1 then cs else (c.1, c.2 - min |d.2| c.2) :: cs)
termination_by ds cs => ds.length + cs.length + creditTotal cs
decreasing_by
  split_ifs with h1 h2 <;>
    simp only [creditTotal, List.length_cons, List.map_cons, List.sum_cons] <;>
      rcases abs_cases d.2 with ⟨he, he2⟩ | ⟨he, he2⟩ <;>
        rcases abs_cases (d.2 + min |d.2| c.2) with ⟨h3, h4⟩ | ⟨h3, h4⟩ <;> omega

/-- The relation Python's ascending stable sort of the debtors uses. -/
def debtLE (a b : String × Int) : Prop := a.2 ≤ b.2

instance : DecidableRel debtLE := fun a b => inferInstanceAs (Decidable (_ ≤ _))

/-- The relation Python's descending stable sort (`reverse=True`) of the
creditors uses. -/
def credLE (a b : String × Int) : Prop := b.2 ≤ a.2

instance : DecidableRel credLE := fun a b => inferInstanceAs (Decidable (_ ≤ _))

/-- `resolve_debts(balances, participants)`: partition the balances into
debtors (`< 0`) and creditors (`> 0`), sort debtors ascending and creditors
descending by balance, and run the greedy loop. -/
def resolve_debts (balances : List (String × Int)) (participants : List (String × String)) :
    List Settlement :=
  let debtors := balances.filter (fun p => p.2 < 0)
  let creditors := balances.filter (fun p => 0 < p.2)
  settleLoop participants
    (List.insertionSort debtLE debtors)
    (List.insertionSort credLE creditors)

/-- Total amount a participant (by display name) pays across a settlement
list. -/
def netFrom (x : String) (l : List Settlement) : Int :=
  ((l.filter (fun s => s.from_ == x)).map (fun s => s.amount)).sum

/-- Total amount a participant (by display name) receives across a settlement
list. -/
def netTo (x : String) (l : List Settlement) : Int :=
  ((l.filter (fun s => s.to_ == x)).map (fun s => s.amount)).sum

/-- Add `δ` to the balance stored under key `k`. -/
def bump (k : String) (δ : Int) (b : List (String × Int)) : List (String × Int) :=
  b.map (fun p => if p.1 == k then (p.1, p.2 + δ) else p)

/-- Modelled from the claim (C8): executing the emitted settlements against the
balances, one settlement at a time — each payer's balance rises by the paid
amount (it owes that much less) and each payee's balance falls by the received
amount (it is owed that much less). -/
def applySettlements (l : List Settlement) (balances : List (String × Int)) :
    List (String × Int) :=
  l.foldl (fun b s => bump s.to_ (-s.amount) (bump s.from_ s.amount b)) balances

/-- The exact real-valued percentage amounts of an expense, in canonical
order: `(share / 100) * total` for each canonically ordered split. -/
def percExact (splits : List Split) (T : Int) : List ℚ :=
  ((stableEnum splits).map Prod.snd).map (fun s => s.share / 100 * (T : ℚ))

/-- The canonical indices that receive one extra unit in the
largest-remainder apportionment: the first `total - sum(bases)` entries of the
sort by `(-fraction, index)`. -/
def winnersList (xs : List ℚ) (T : Int) : List Nat :=
  ((sortedFracs xs).map Prod.fst).take (T - (baseAmounts xs).sum).toNat

/-- The fractional part `exact - base` of canonical index `i`. -/
def fracOf (xs : List ℚ) (i : Nat) : ℚ :=
  xs.getD i 0 - ((baseAmounts xs).getD i 0 : ℚ)

/-! ### Basic lemmas about `incAt` and `applyExtras` -/

theorem incAt_length (n : Nat) (l : List Int) : (incAt n l).length = l.length := by
  induction l generalizing n with
  | nil => cases n <;> rfl
  | cons x xs ih => cases n with
    | zero => rfl
    | succ m => simp [incAt, ih]

theorem incAt_getD (n : Nat) (l : List Int) (k : Nat) :
    (incAt n l).getD k 0 = l.getD k 0 + if n = k ∧ n < l.length then 1 else 0 := by
  induction l generalizing n k with
  | nil => cases n <;> simp [incAt]
  | cons x xs ih =>
    cases n with
    | zero => cases k <;> simp [incAt]
    | succ m =>
      cases k with
      | zero => simp [incAt]
      | succ j =>
        simp only [incAt, List.getD_cons_succ, List.length_cons, ih m j]
        by_cases h : m = j ∧ m < xs.length
        · rw [if_pos h, if_pos ⟨by omega, by omega⟩]
        · rw [if_neg h, if_neg (by omega)]

theorem incAt_sum (n : Nat) (l : List Int) :
    (incAt n l).sum = l.sum + if n < l.length then 1 else 0 := by
  induction l generalizing n with
  | nil => cases n <;> simp [incAt]
  | cons x xs ih =>
    cases n with
    | zero => simp [incAt]; ring
    | succ m =>
      simp only [incAt, List.sum_cons, List.length_cons, ih m]
      by_cases h : m < xs.length
      · rw [if_pos h, if_pos (by omega)]; ring
      · rw [if_neg h, if_neg (by omega)]; ring

theorem applyExtras_ok (idxs : List Nat) (r : Nat) (res : List Int)
    (hr : r ≤ idxs.length) (hlt : ∀ i ∈ idxs, i < res.length) (hnd : idxs.Nodup) :
    ∃ out, applyExtras idxs r res = .ok out ∧ out.length = res.length ∧
      out.sum = res.sum + r ∧
      ∀ k, out.getD k 0 = res.getD k 0 + if k ∈ idxs.take r then 1 else 0 := by
  induction idxs generalizing r res with
  | nil =>
    have hr0 : r = 0 := by simpa using hr
    subst hr0
    exact ⟨res, rfl, rfl, by simp, by simp⟩
  | cons i rest ih =>
    cases r with
    | zero => exact ⟨res, rfl, rfl, by simp, by simp⟩
    | succ r =>
      have hi : i < res.length := hlt i (by simp)
      obtain ⟨out, h1, h2, h3, h4⟩ := ih r (incAt i res)
        (by simpa using hr)
        (fun j hj => by rw [incAt_length]; exact hlt j (by simp [hj]))
        hnd.of_cons
      refine ⟨out, h1, by rw [h2, incAt_length], ?_, ?_⟩
      · rw [h3, incAt_sum, if_pos hi]; push_cast; ring
      · intro k
        have hirest : i ∉ rest := (List.nodup_cons.mp hnd).1
        rw [h4 k, incAt_getD]
        simp only [List.take_succ_cons]
        by_cases hk : i = k
        · subst hk
          rw [if_pos ⟨rfl, hi⟩, if_pos (List.mem_cons_self i _),
            if_neg (fun h => hirest (List.mem_of_mem_take h))]
          ring
        · have h7 : k ∈ i :: List.take r rest ↔ k ∈ List.take r rest := by
            constructor
            · intro h
              rcases List.mem_cons.mp h with h | h
              · exact absurd h.symm hk
              · exact h
            · exact fun h => List.mem_cons_of_mem _ h
          rw [if_neg (fun h => hk h.1)]
          by_cases hm : k ∈ List.take r rest
          · rw [if_pos hm, if_pos (h7.mpr hm)]
            omega
          · rw [if_neg hm, if_neg (fun h => hm (h7.mp h))]
            omega

/-! ### Lemmas about `scatter` -/

theorem foldl_set_length (pairs : List (Nat × Int)) (acc : List Int) :
    (pairs.foldl (fun a p => a.set p.1 p.2) acc).length = acc.length := by
  induction pairs generalizing acc with
  | nil => rfl
  | cons p rest ih => rw [List.foldl_cons, ih, List.length_set]

theorem find?_eq_of_mem_of_nodupKeys {γ : Type} {l : List (Nat × γ)} {p : Nat × γ}
    (hnd : (l.map Prod.fst).Nodup) (hp : p ∈ l) :
    l.find? (fun q => q.1 == p.1) = some p := by
  induction l with
  | nil => simp at hp
  | cons q rest ih =>
    rcases List.mem_cons.mp hp with rfl | hp'
    · exact List.find?_cons_of_pos _ (by simp)
    · have hq : q.1 ≠ p.1 := by
        intro h
        exact (List.nodup_cons.mp (by simpa using hnd)).1
          (h ▸ List.mem_map_of_mem Prod.fst hp')
      rw [List.find?_cons_of_neg _ (by simp [hq])]
      exact ih (by simpa using (List.nodup_cons.mp (by simpa using hnd)).2) hp'

theorem foldl_set_getD (pairs : List (Nat × Int)) (acc : List Int)
    (hnd : (pairs.map Prod.fst).Nodup) (hlt : ∀ p ∈ pairs, p.1 < acc.length) (k : Nat) :
    (pairs.foldl (fun a p => a.set p.1 p.2) acc).getD k 0 =
      match pairs.find? (fun q => q.1 == k) with
      | some p => p.2
      | none => acc.getD k 0 := by
  induction pairs generalizing acc with
  | nil => rfl
  | cons p rest ih =>
    have hnd' : (rest.map Prod.fst).Nodup := by
      simpa using (List.nodup_cons.mp (by simpa using hnd)).2
    have hlt' : ∀ q ∈ rest, q.1 < (acc.set p.1 p.2).length := by
      intro q hq; rw [List.length_set]; exact hlt q (by simp [hq])
    rw [List.foldl_cons, ih (acc.set p.1 p.2) hnd' hlt']
    by_cases hk : p.1 = k
    · subst hk
      rw [List.find?_cons_of_pos _ (by simp)]
      have : rest.find? (fun q => q.1 == p.1) = none := by
        rw [List.find?_eq_none]
        intro q hq hbeq
        have hq1 : q.1 = p.1 := by simpa using hbeq
        exact (List.nodup_cons.mp (by simpa only [List.map_cons] using hnd)).1
          (hq1 ▸ List.mem_map_of_mem Prod.fst hq)
      rw [this]
      have := hlt p (by simp)
      rw [List.getD_eq_getElem _ _ (by rwa [List.length_set]), List.getElem_set_self]
    · rw [List.find?_cons_of_neg _ (by simp [hk])]
      cases hfind : rest.find? (fun q => q.1 == k) with
      | some q => rfl
      | none =>
        by_cases hklen : k < acc.length
        · rw [List.getD_eq_getElem _ _ (by rwa [List.length_set]),
            List.getD_eq_getElem _ _ hklen, List.getElem_set_ne hk]
        · rw [List.getD_eq_default _ _ (by rw [List.length_set]; omega),
            List.getD_eq_default _ _ (by omega)]

theorem gather_perm {γ : Type} [DecidableEq γ] (assoc : List (Nat × γ)) (n : Nat) (g : Nat → γ)
    (h : (assoc.map Prod.fst).Perm (List.range n)) (hg : ∀ p ∈ assoc, g p.1 = p.2) :
    ((List.range n).map g).Perm (assoc.map Prod.snd) := by
  rw [List.perm_iff_count]
  intro x
  rw [List.count_eq_countP, List.count_eq_countP, List.countP_map, List.countP_map,
    (h.countP_eq ((fun y => y == x) ∘ g)).symm, List.countP_map]
  apply List.countP_congr
  intro p hp
  simp [Function.comp, hg p hp]

theorem eq_range_map {α : Type} (f : Nat → α) (l : List α)
    (hf : ∀ i (h : i < l.length), l.get ⟨i, h⟩ = f i) :
    l = (List.range l.length).map f := by
  apply List.ext_getElem (by simp)
  intro i h1 h2
  simp only [List.getElem_map, List.getElem_range]
  rw [← hf i h1]
  rfl

/-! ### Order instances for the sorting relations -/

instance : IsTotal (Nat × Split) splitLE where
  total a b := by
    unfold splitLE
    rcases lt_trichotomy a.2.participantId b.2.participantId with h | h | h
    · exact Or.inl (Or.inl h)
    · rcases Nat.le_total a.1 b.1 with h2 | h2
      · exact Or.inl (Or.inr ⟨h, h2⟩)
      · exact Or.inr (Or.inr ⟨h.symm, h2⟩)
    · exact Or.inr (Or.inl h)

instance : IsTrans (Nat × Split) splitLE where
  trans a b c hab hbc := by
    unfold splitLE at *
    rcases hab with h | ⟨he, hi⟩ <;> rcases hbc with h2 | ⟨he2, hi2⟩
    · exact Or.inl (lt_trans h h2)
    · exact Or.inl (he2 ▸ h)
    · exact Or.inl (he ▸ h2)
    · exact Or.inr ⟨he.trans he2, le_trans hi hi2⟩

instance : IsTotal (Nat × ℚ) fracOrder where
  total a b := by
    unfold fracOrder
    rcases lt_trichotomy a.2 b.2 with h | h | h
    · exact Or.inr (Or.inl h)
    · rcases Nat.le_total a.1 b.1 with h2 | h2
      · exact Or.inl (Or.inr ⟨h, h2⟩)
      · exact Or.inr (Or.inr ⟨h.symm, h2⟩)
    · exact Or.inl (Or.inl h)

instance : IsTrans (Nat × ℚ) fracOrder where
  trans a b c hab hbc := by
    unfold fracOrder at *
    rcases hab with h | ⟨he, hi⟩ <;> rcases hbc with h2 | ⟨he2, hi2⟩
    · exact Or.inl (lt_trans h2 h)
    · exact Or.inl (he2 ▸ h)
    · exact Or.inl (he ▸ h2)
    · exact Or.inr ⟨he.trans he2, le_trans hi hi2⟩

instance : IsTotal (String × Int) debtLE where
  total a b := by unfold debtLE; exact le_total a.2 b.2

instance : IsTrans (String × Int) debtLE where
  trans a b c hab hbc := le_trans hab hbc

instance : IsTotal (String × Int) credLE where
  total a b := by unfold credLE; exact le_total b.2 a.2

instance : IsTrans (String × Int) credLE where
  trans a b c hab hbc := le_trans hbc hab

/-! ### Facts about the canonical ordering `stableEnum` -/

theorem stableEnum_perm (splits : List Split) :
    (stableEnum splits).Perm splits.enum :=
  List.perm_insertionSort splitLE splits.enum

theorem stableEnum_length (splits : List Split) :
    (stableEnum splits).length = splits.length := by
  rw [(stableEnum_perm splits).length_eq, List.enum_length]

theorem stableEnum_fst_perm (splits : List Split) :
    ((stableEnum splits).map Prod.fst).Perm (List.range splits.length) := by
  have := (stableEnum_perm splits).map Prod.fst
  rwa [List.enum_map_fst] at this

theorem stableEnum_fst_nodup (splits : List Split) :
    ((stableEnum splits).map Prod.fst).Nodup :=
  ((stableEnum_fst_perm splits).nodup_iff).mpr (List.nodup_range _)

theorem stableEnum_fst_lt (splits : List Split) :
    ∀ j ∈ (stableEnum splits).map Prod.fst, j < splits.length := by
  intro j hj
  have := ((stableEnum_fst_perm splits).mem_iff).mp hj
  exact List.mem_range.mp this

theorem stableEnum_snd_perm (splits : List Split) :
    ((stableEnum splits).map Prod.snd).Perm splits := by
  have := (stableEnum_perm splits).map Prod.snd
  rwa [List.enum_map_snd] at this

theorem stableEnum_get? (splits : List Split) :
    ∀ p ∈ stableEnum splits, splits.get? p.1 = some p.2 := by
  intro p hp
  exact List.mem_enum_iff_get?.mp (((stableEnum_perm splits).mem_iff).mp hp)

theorem stableEnum_sorted (splits : List Split) :
    List.Sorted splitLE (stableEnum splits) :=
  List.sorted_insertionSort splitLE splits.enum

/-! ### `scatter` characterization -/

theorem scatter_length (stable : List (Nat × Split)) (amounts : List Int) (n : Nat) :
    (scatter stable amounts n).length = n := by
  unfold scatter
  rw [foldl_set_length, List.length_replicate]

theorem scatter_getD (stable : List (Nat × Split)) (amounts : List Int) (n : Nat)
    (hnd : (stable.map Prod.fst).Nodup) (hlt : ∀ j ∈ stable.map Prod.fst, j < n)
    (hlen : amounts.length = stable.length)
    (p : Nat × Int) (hp : p ∈ (stable.map Prod.fst).zip amounts) :
    (scatter stable amounts n).getD p.1 0 = p.2 := by
  unfold scatter
  have hfst : ((stable.map Prod.fst).zip amounts).map Prod.fst = stable.map Prod.fst :=
    List.map_fst_zip _ _ (by simp [hlen])
  rw [foldl_set_getD _ _ (by rw [hfst]; exact hnd)
    (by
      intro q hq
      rw [List.length_replicate]
      exact hlt q.1 (hfst ▸ List.mem_map_of_mem Prod.fst hq)),
    find?_eq_of_mem_of_nodupKeys (by rw [hfst]; exact hnd) hp]

theorem scatter_perm (stable : List (Nat × Split)) (amounts : List Int) (n : Nat)
    (hnd : (stable.map Prod.fst).Nodup) (hlt : ∀ j ∈ stable.map Prod.fst, j < n)
    (hlen : amounts.length = stable.length)
    (hperm : ((stable.map Prod.fst)).Perm (List.range n)) :
    (scatter stable amounts n).Perm amounts := by
  have hlen2 : (scatter stable amounts n).length = n := scatter_length _ _ _
  have hz : ((stable.map Prod.fst).zip amounts).map Prod.fst = stable.map Prod.fst :=
    List.map_fst_zip _ _ (by simp [hlen])
  have hz2 : ((stable.map Prod.fst).zip amounts).map Prod.snd = amounts :=
    List.map_snd_zip _ _ (by simp [hlen])
  have hmain := gather_perm ((stable.map Prod.fst).zip amounts) n
    (fun j => (scatter stable amounts n).getD j 0)
    (by rw [hz]; exact hperm)
    (fun p hp => scatter_getD stable amounts n hnd hlt hlen p hp)
  rw [hz2] at hmain
  have hscat : scatter stable amounts n =
      (List.range n).map (fun j => (scatter stable amounts n).getD j 0) := by
    have h0 := eq_range_map (fun j => (scatter stable amounts n).getD j 0)
      (scatter stable amounts n)
      (fun i h => by
        show (scatter stable amounts n).get ⟨i, h⟩ = (scatter stable amounts n).getD i 0
        rw [List.getD_eq_getElem _ _ h]
        rfl)
    rwa [hlen2] at h0
  rw [hscat]
  exact hmain

/-! ### Facts about the largest-remainder apportionment -/

theorem floor_sum_le (xs : List ℚ) : (((baseAmounts xs).sum : Int) : ℚ) ≤ xs.sum := by
  unfold baseAmounts
  induction xs with
  | nil => simp
  | cons x t ih =>
    simp only [List.map_cons, List.sum_cons, Int.cast_add]
    exact add_le_add (Int.floor_le x) ih

theorem sum_lt_floor_sum_add (xs : List ℚ) (h : xs ≠ []) :
    xs.sum < (((baseAmounts xs).sum : Int) : ℚ) + xs.length := by
  unfold baseAmounts
  induction xs with
  | nil => exact absurd rfl h
  | cons x t ih =>
    simp only [List.map_cons, List.sum_cons, List.length_cons, Int.cast_add,
      Nat.cast_add, Nat.cast_one]
    rcases eq_or_ne t [] with rfl | ht
    · simpa using Int.lt_floor_add_one x
    · have h2 := ih ht
      have hx := Int.lt_floor_add_one x
      linarith

theorem fracPairs_fst (xs : List ℚ) : (fracPairs xs).map Prod.fst = List.range xs.length := by
  unfold fracPairs
  rw [List.map_map]
  have h : (Prod.fst ∘ fun i =>
      ((i : Nat), xs.getD i 0 - (((baseAmounts xs).getD i 0 : Int) : ℚ))) = id := by
    funext i
    rfl
  rw [h, List.map_id]

theorem sortedFracs_fst_perm (xs : List ℚ) :
    ((sortedFracs xs).map Prod.fst).Perm (List.range xs.length) := by
  have := (List.perm_insertionSort fracOrder (fracPairs xs)).map Prod.fst
  rwa [fracPairs_fst] at this

theorem sortedFracs_fst_nodup (xs : List ℚ) : ((sortedFracs xs).map Prod.fst).Nodup :=
  ((sortedFracs_fst_perm xs).nodup_iff).mpr (List.nodup_range _)

theorem sortedFracs_fst_lt (xs : List ℚ) :
    ∀ j ∈ (sortedFracs xs).map Prod.fst, j < xs.length := by
  intro j hj
  exact List.mem_range.mp (((sortedFracs_fst_perm xs).mem_iff).mp hj)

theorem sortedFracs_length (xs : List ℚ) : (sortedFracs xs).length = xs.length := by
  have := ((sortedFracs_fst_perm xs)).length_eq
  simpa using this

/-- When the exact amounts genuinely sum to the total, the remainder is
non-negative and strictly below the number of shares, so the distribution loop
succeeds and restores the exact total. -/
theorem apportion_ok (xs : List ℚ) (T : Int) (hne : xs ≠ [])
    (hsum : xs.sum = (T : ℚ)) :
    ∃ out, apportion xs T = .ok out ∧ out.length = xs.length ∧ out.sum = T ∧
      ∀ k, out.getD k 0 = (baseAmounts xs).getD k 0 +
        if k ∈ (((sortedFracs xs).map Prod.fst).take (T - (baseAmounts xs).sum).toNat : List Nat)
        then 1 else 0 := by
  have hS_le : (baseAmounts xs).sum ≤ T := by
    have := floor_sum_le xs
    rw [hsum] at this
    exact_mod_cast this
  have hS_lt : T < (baseAmounts xs).sum + xs.length := by
    have := sum_lt_floor_sum_add xs hne
    rw [hsum] at this
    exact_mod_cast this
  have hr : (T - (baseAmounts xs).sum).toNat ≤ ((sortedFracs xs).map Prod.fst).length := by
    rw [List.length_map, sortedFracs_length]
    omega
  have hlt : ∀ i ∈ (sortedFracs xs).map Prod.fst, i < (baseAmounts xs).length := by
    intro i hi
    rw [baseAmounts, List.length_map]
    exact sortedFracs_fst_lt xs i hi
  obtain ⟨out, h1, h2, h3, h4⟩ := applyExtras_ok ((sortedFracs xs).map Prod.fst)
    (T - (baseAmounts xs).sum).toNat (baseAmounts xs) hr hlt (sortedFracs_fst_nodup xs)
  refine ⟨out, h1, ?_, ?_, h4⟩
  · rw [h2, baseAmounts, List.length_map]
  · rw [h3]
    omega

/-! ### Characterization of `_normalize_equal` -/

theorem foldl_incAt_range (r : Nat) (l : List Int) :
    ((List.range r).foldl (fun res i => incAt i res) l).length = l.length ∧
    (r ≤ l.length → ((List.range r).foldl (fun res i => incAt i res) l).sum = l.sum + r) ∧
    (∀ k, ((List.range r).foldl (fun res i => incAt i res) l).getD k 0 =
      l.getD k 0 + if k < r ∧ k < l.length then 1 else 0) := by
  induction r with
  | zero => exact ⟨rfl, by simp, by simp⟩
  | succ r ih =>
    obtain ⟨ih1, ih2, ih3⟩ := ih
    rw [List.range_succ]
    simp only [List.foldl_append, List.foldl_cons, List.foldl_nil]
    refine ⟨by rw [incAt_length, ih1], ?_, ?_⟩
    · intro hr
      rw [incAt_sum, ih1, if_pos (by omega), ih2 (by omega)]
      push_cast
      ring
    · intro k
      rw [incAt_getD, ih1, ih3 k]
      by_cases h1 : k < r ∧ k < l.length
      · rw [if_pos h1, if_neg (by omega), if_pos (by omega)]
        omega
      · rw [if_neg h1]
        by_cases h2 : r = k ∧ r < l.length
        · rw [if_pos h2, if_pos (by omega)]
          omega
        · rw [if_neg h2, if_neg (by omega)]
          omega

theorem normalize_equal_spec (count : Nat) (total : Int) (hc : 0 < count) :
    (_normalize_equal count total).length = count ∧
    (_normalize_equal count total).sum = total ∧
    ∀ k, k < count → (_normalize_equal count total).getD k 0 =
      Int.fdiv total count +
        (if (k : Int) < total - Int.fdiv total count * count then 1 else 0) := by
  have hcount : (0 : Int) < count := by exact_mod_cast hc
  have hfd : Int.fdiv total count = total / count := Int.fdiv_eq_ediv total (by omega)
  have hrem : total - Int.fdiv total count * count = total % count := by
    rw [hfd, Int.emod_def]
    ring
  have hrem_bounds : 0 ≤ total % (count : Int) ∧ total % (count : Int) < count :=
    ⟨Int.emod_nonneg total (by omega), Int.emod_lt_of_pos total hcount⟩
  obtain ⟨h1, h2, h3⟩ := foldl_incAt_range
    (total - Int.fdiv total count * count).toNat
    (List.replicate count (Int.fdiv total count))
  have hlen : (List.replicate count (Int.fdiv total count)).length = count :=
    List.length_replicate _ _
  have hr_le : (total - Int.fdiv total count * count).toNat ≤ count := by
    rw [hrem]
    omega
  refine ⟨?_, ?_, ?_⟩
  · rw [_normalize_equal, h1, hlen]
  · have htn : (((total % (count : Int)).toNat : Int)) = total % (count : Int) := by omega
    rw [_normalize_equal, h2 (by rw [hlen]; exact hr_le), List.sum_replicate,
      nsmul_eq_mul, hrem, htn, hfd, Int.ediv_add_emod]
  · intro k hk
    rw [_normalize_equal, h3 k,
      List.getD_eq_getElem _ _ (by rw [hlen]; exact hk), List.getElem_replicate, hlen]
    by_cases hcase : (k : Int) < total - Int.fdiv total count * count
    · rw [if_pos (by constructor <;> omega), if_pos hcase]
    · rw [if_neg (by omega), if_neg hcase]

/-! ### Per-branch sum lemmas -/

theorem percentage_sum (ss : List Split) (T : Int) (amts : List Int)
    (hne : ss ≠ []) (hsum : (ss.map (fun s => s.share)).sum = 100)
    (hok : _normalize_percentage ss T = .ok amts) :
    amts.sum = T ∧ amts.length = ss.length := by
  unfold _normalize_percentage at hok
  rw [if_neg (by rw [hsum]; norm_num [tolerance])] at hok
  have hxs : (ss.map (fun s => s.share / 100 * (T : ℚ))) =
      ((ss.map (fun s => s.share)).map (fun q => q * ((T : ℚ) / 100))) := by
    rw [List.map_map]
    apply List.map_congr_left
    intro s _
    show s.share / 100 * (T : ℚ) = s.share * ((T : ℚ) / 100)
    ring
  have hxsum : (ss.map (fun s => s.share / 100 * (T : ℚ))).sum = (T : ℚ) := by
    rw [hxs, List.sum_map_mul_right, List.map_id', hsum]
    ring
  obtain ⟨out, h1, h2, h3, _⟩ := apportion_ok (ss.map (fun s => s.share / 100 * (T : ℚ))) T
    (by simpa using hne) hxsum
  rw [h1] at hok
  cases hok
  constructor
  · exact h3
  · rw [h2, List.length_map]

theorem weight_sum (ss : List Split) (T : Int) (amts : List Int)
    (hne : ss ≠ []) (hok : _normalize_weight ss T = .ok amts) :
    amts.sum = T ∧ amts.length = ss.length := by
  unfold _normalize_weight at hok
  by_cases hw : (ss.map (fun s => s.share)).sum ≤ 0
  · rw [if_pos hw] at hok
    cases hok
  · rw [if_neg hw] at hok
    have hW : (ss.map (fun s => s.share)).sum ≠ 0 := by
      intro h
      exact hw (le_of_eq h)
    have hxs : (ss.map (fun s => s.share / (ss.map (fun s => s.share)).sum * (T : ℚ))) =
        ((ss.map (fun s => s.share)).map
          (fun q => q * ((T : ℚ) / (ss.map (fun s => s.share)).sum))) := by
      rw [List.map_map]
      apply List.map_congr_left
      intro s _
      show s.share / (ss.map (fun s => s.share)).sum * (T : ℚ)
        = s.share * ((T : ℚ) / (ss.map (fun s => s.share)).sum)
      ring
    have hxsum : (ss.map (fun s => s.share / (ss.map (fun s => s.share)).sum * (T : ℚ))).sum
        = (T : ℚ) := by
      rw [hxs, List.sum_map_mul_right, List.map_id']
      field_simp
    obtain ⟨out, h1, h2, h3, _⟩ := apportion_ok
      (ss.map (fun s => s.share / (ss.map (fun s => s.share)).sum * (T : ℚ))) T
      (by simpa using hne) hxsum
    rw [h1] at hok
    cases hok
    constructor
    · exact h3
    · rw [h2, List.length_map]

theorem amount_sum (ss : List Split) (T : Int) (amts : List Int)
    (hok : _normalize_amount ss T = .ok amts) :
    amts.sum = T ∧ amts.length = ss.length := by
  unfold _normalize_amount at hok
  by_cases h1 : (ss.filter (fun s => s.amount.isNone)).length ≠ 0
  · rw [if_pos h1] at hok
    cases hok
  · rw [if_neg h1] at hok
    by_cases h2 : (ss.map (fun s => s.amount.getD 0)).sum ≠ T
    · rw [if_pos h2] at hok
      cases hok
    · rw [if_neg h2] at hok
      cases hok
      exact ⟨by omega, List.length_map _ _⟩

/-! ### Plumbing for `normalize_shares` -/

theorem normalize_shares_ok_elim (s0 : Split) (rest : List Split) (T : Int) (res : List Int)
    (hT : T ≠ 0) (hok : normalize_shares (s0 :: rest) T = .ok res) :
    (s0 :: rest).all (fun s => s.shareType == s0.shareType) = true ∧
    ∃ amts,
      branchNormalize s0.shareType ((stableEnum (s0 :: rest)).map Prod.snd) T = .ok amts ∧
      res = scatter (stableEnum (s0 :: rest)) amts (s0 :: rest).length := by
  simp only [normalize_shares] at hok
  rw [if_neg hT] at hok
  by_cases hall : (s0 :: rest).all (fun s => s.shareType == s0.shareType)
  · rw [if_pos hall] at hok
    refine ⟨hall, ?_⟩
    cases hb : branchNormalize s0.shareType ((stableEnum (s0 :: rest)).map Prod.snd) T with
    | ok amts =>
      rw [hb] at hok
      simp only [Except.map] at hok
      cases hok
      exact ⟨amts, rfl, rfl⟩
    | error e =>
      rw [hb] at hok
      simp only [Except.map] at hok
      cases hok
  · rw [if_neg hall] at hok
    cases hok

theorem scatter_stable_perm (splits : List Split) (amts : List Int)
    (hlen : amts.length = (stableEnum splits).length) :
    (scatter (stableEnum splits) amts splits.length).Perm amts :=
  scatter_perm _ _ _ (stableEnum_fst_nodup splits) (stableEnum_fst_lt splits) hlen
    (stableEnum_fst_perm splits)

/-- C1 (amended): whenever a non-empty split list passes validation
(`normalize_shares` returns a result) and, in the percentage case, the declared
shares sum to exactly 100, the returned integer shares sum exactly to the
expense total. -/
theorem C1_normalize_sum (splits : List Split) (T : Int) (res : List Int)
    (hne : splits ≠ [])
    (hok : normalize_shares splits T = .ok res)
    (hpct : (∃ s ∈ splits, s.shareType = "percentage") →
      (splits.map (fun s => s.share)).sum = 100) :
    res.sum = T := by
  cases splits with
  | nil => exact absurd rfl hne
  | cons s0 rest =>
    by_cases hT : T = 0
    · subst hT
      simp only [normalize_shares] at hok
      rw [if_pos trivial] at hok
      cases hok
      simp
    · obtain ⟨hall, amts, hb, hres⟩ := normalize_shares_ok_elim s0 rest T res hT hok
      have hssperm : ((stableEnum (s0 :: rest)).map Prod.snd).Perm (s0 :: rest) :=
        stableEnum_snd_perm _
      have hssne : (stableEnum (s0 :: rest)).map Prod.snd ≠ [] := by
        intro h
        have := hssperm.length_eq
        rw [h] at this
        simp at this
      have hamts : amts.sum = T ∧
          amts.length = ((stableEnum (s0 :: rest)).map Prod.snd).length := by
        unfold branchNormalize at hb
        by_cases h1 : s0.shareType = "equal"
        · rw [if_pos h1] at hb
          cases hb
          have hc : 0 < ((stableEnum (s0 :: rest)).map Prod.snd).length := by
            cases hd : (stableEnum (s0 :: rest)).map Prod.snd with
            | nil => exact absurd hd hssne
            | cons a t => simp
          obtain ⟨l1, l2, _⟩ := normalize_equal_spec _ T hc
          exact ⟨l2, l1⟩
        · rw [if_neg h1] at hb
          by_cases h2 : s0.shareType = "percentage"
          · rw [if_pos h2] at hb
            have hsum100 :
                (((stableEnum (s0 :: rest)).map Prod.snd).map (fun s => s.share)).sum
                  = 100 := by
              have h100 := hpct ⟨s0, by simp, h2⟩
              rw [(hssperm.map (fun s => s.share)).sum_eq, h100]
            exact percentage_sum _ T amts hssne hsum100 hb
          · rw [if_neg h2] at hb
            by_cases h3 : s0.shareType = "weight"
            · rw [if_pos h3] at hb
              exact weight_sum _ T amts hssne hb
            · rw [if_neg h3] at hb
              by_cases h4 : s0.shareType = "amount"
              · rw [if_pos h4] at hb
                exact amount_sum _ T amts hb
              · rw [if_neg h4] at hb
                cases hb
      have hlen : amts.length = (stableEnum (s0 :: rest)).length := by
        rw [hamts.2, List.length_map]
      have hperm := scatter_stable_perm (s0 :: rest) amts hlen
      rw [hres, hperm.sum_eq, hamts.1]

/-- C1 counterexample: the two-split percentage list with shares
`[50.005, 50.005]` passes validation (the sum `100.01` is within the
tolerance), yet for total `100000` the returned shares sum to `100010`, not
`100000`. -/
theorem C1_counterexample :
    normalize_shares
        [⟨"a", "percentage", 10001/200, none⟩, ⟨"b", "percentage", 10001/200, none⟩]
        100000 =
      Except.ok [50005, 50005] ∧ ([50005, 50005] : List Int).sum ≠ 100000 := by
  constructor
  · have hstable :
        stableEnum [⟨"a", "percentage", 10001/200, none⟩, ⟨"b", "percentage", 10001/200, none⟩] =
          [(0, ⟨"a", "percentage", 10001/200, none⟩), (1, ⟨"b", "percentage", 10001/200, none⟩)] := by
      simp +decide [stableEnum, List.enum, List.enumFrom, List.insertionSort,
        List.orderedInsert, splitLE]
    have hfrac : fracPairs [(50005 : ℚ), (50005 : ℚ)] = [(0, 0), (1, 0)] := by
      norm_num [fracPairs, baseAmounts, List.range_succ, Int.floor_intCast]
    have hsorted : sortedFracs [(50005 : ℚ), (50005 : ℚ)] = [(0, 0), (1, 0)] := by
      rw [sortedFracs, hfrac]
      norm_num +decide [List.insertionSort, List.orderedInsert, fracOrder]
    have hbase : baseAmounts [(50005 : ℚ), (50005 : ℚ)] = [50005, 50005] := by
      norm_num [baseAmounts, Int.floor_intCast]
    have happ : apportion [(50005 : ℚ), (50005 : ℚ)] 100000 = .ok [50005, 50005] := by
      rw [apportion, hsorted, hbase]
      norm_num [applyExtras]
    have hexact :
        ([⟨"a", "percentage", 10001/200, none⟩, ⟨"b", "percentage", 10001/200, none⟩] :
            List Split).map
          (fun s => s.share / 100 * ((100000 : Int) : ℚ)) = [(50005 : ℚ), (50005 : ℚ)] := by
      norm_num
    have hpct :
        _normalize_percentage
          [⟨"a", "percentage", 10001/200, none⟩, ⟨"b", "percentage", 10001/200, none⟩] 100000 =
          .ok [50005, 50005] := by
      unfold _normalize_percentage
      rw [if_neg (by
        rw [not_lt]
        have hsum :
            ((([⟨"a", "percentage", 10001/200, none⟩, ⟨"b", "percentage", 10001/200, none⟩] :
              List Split).map (fun s => s.share)).sum : ℚ) = 10001/100 := by
          norm_num
        rw [hsum, abs_le]
        constructor <;> norm_num [tolerance])]
      rw [hexact, happ]
    simp only [normalize_shares]
    rw [if_neg (by norm_num), if_pos (by decide)]
    simp only [hstable, List.map_cons, List.map_nil]
    rw [branchNormalize, if_neg (by decide), if_pos rfl, hpct]
    simp only [Except.map]
    rw [scatter]
    norm_num [List.set]
  · decide

/-- Witness for `C1_normalize_sum` at an equal split of 7 between one
participant. -/
theorem C1_normalize_sum_witness :
    normalize_shares [⟨"a", "equal", 0, none⟩] 7 = .ok [7] ∧ ([7] : List Int).sum = 7 :=
  ⟨by decide,
    C1_normalize_sum [⟨"a", "equal", 0, none⟩] 7 [7] (by simp) (by decide) (by simp)⟩

/-! ### Position-level scatter access -/

theorem scatter_getD_at (stable : List (Nat × Split)) (amts : List Int) (n : Nat)
    (hnd : (stable.map Prod.fst).Nodup) (hlt : ∀ j ∈ stable.map Prod.fst, j < n)
    (hlen : amts.length = stable.length) (k : Nat) (hk : k < stable.length) :
    (scatter stable amts n).getD ((stable.map Prod.fst).getD k 0) 0 = amts.getD k 0 := by
  have hk1 : k < (stable.map Prod.fst).length := by rwa [List.length_map]
  have hk2 : k < amts.length := by omega
  have hmem : ((stable.map Prod.fst).getD k 0, amts.getD k 0) ∈
      (stable.map Prod.fst).zip amts := by
    rw [List.getD_eq_getElem _ _ hk1, List.getD_eq_getElem _ _ hk2, List.mem_iff_get]
    refine ⟨⟨k, by rw [List.length_zip]; omega⟩, ?_⟩
    rw [List.get_eq_getElem, List.getElem_zip]
  exact scatter_getD stable amts n hnd hlt hlen _ hmem

/-- C4: for a non-empty equal-type split list and non-zero total `T`,
normalization succeeds; every participant receives `base = T fdiv n`, and
exactly the first `T - base*n` participants in canonical order receive one
additional unit (read off through the canonical positions
`(stableEnum splits).map Prod.fst`). -/
theorem C4_equal_split (splits : List Split) (T : Int)
    (hne : splits ≠ []) (hT : T ≠ 0)
    (heq : ∀ s ∈ splits, s.shareType = "equal") :
    ∃ res, normalize_shares splits T = .ok res ∧
      res.length = splits.length ∧
      ∀ k, k < splits.length →
        res.getD (((stableEnum splits).map Prod.fst).getD k 0) 0 =
          Int.fdiv T splits.length +
            (if (k : Int) < T - Int.fdiv T splits.length * splits.length then 1 else 0) := by
  cases splits with
  | nil => exact absurd rfl hne
  | cons s0 rest =>
    have hall : (s0 :: rest).all (fun s => s.shareType == s0.shareType) = true := by
      rw [List.all_eq_true]
      intro s hs
      rw [heq s hs, heq s0 (by simp)]
      simp
    have hss_len : ((stableEnum (s0 :: rest)).map Prod.snd).length = (s0 :: rest).length := by
      rw [List.length_map, stableEnum_length]
    have hres : normalize_shares (s0 :: rest) T =
        .ok (scatter (stableEnum (s0 :: rest))
          (_normalize_equal ((stableEnum (s0 :: rest)).map Prod.snd).length T)
          (s0 :: rest).length) := by
      simp only [normalize_shares]
      rw [if_neg hT, if_pos hall, branchNormalize, if_pos (heq s0 (by simp))]
      simp only [Except.map]
    have hc : 0 < ((stableEnum (s0 :: rest)).map Prod.snd).length := by
      rw [hss_len]
      simp
    obtain ⟨hl, _, hval⟩ := normalize_equal_spec
      ((stableEnum (s0 :: rest)).map Prod.snd).length T hc
    refine ⟨_, hres, scatter_length _ _ _, ?_⟩
    intro k hk
    rw [scatter_getD_at (stableEnum (s0 :: rest)) _ _ (stableEnum_fst_nodup _)
      (stableEnum_fst_lt _) (by rw [hl, List.length_map]) k
      (by rw [stableEnum_length]; exact hk)]
    rw [hval k (by rw [hss_len]; exact hk), hss_len]

/-! ### Largest-remainder characterization -/

theorem applyExtras_ok_le (idxs : List Nat) (r : Nat) (res out : List Int)
    (h : applyExtras idxs r res = .ok out) : r ≤ idxs.length := by
  induction idxs generalizing r res with
  | nil =>
    cases r with
    | zero => simp
    | succ r => cases h
  | cons i rest ih =>
    cases r with
    | zero => simp
    | succ r =>
      have := ih r (incAt i res) h
      simp only [List.length_cons]
      omega

theorem sortedFracs_mem_frac (xs : List ℚ) (p : Nat × ℚ) (hp : p ∈ sortedFracs xs) :
    p.2 = xs.getD p.1 0 - ((baseAmounts xs).getD p.1 0 : ℚ) := by
  have hmem : p ∈ fracPairs xs :=
    (List.perm_insertionSort fracOrder (fracPairs xs)).mem_iff.mp hp
  unfold fracPairs at hmem
  obtain ⟨i, _, hpe⟩ := List.mem_map.mp hmem
  cases hpe
  rfl

theorem sortedFracs_sorted (xs : List ℚ) : List.Sorted fracOrder (sortedFracs xs) :=
  List.sorted_insertionSort fracOrder (fracPairs xs)

/-- Any `ok` result of `apportion` is the floors plus one extra unit exactly on
the winner set (the first `remainder` canonical indices of the sort by
descending fraction, ties by ascending index), and every winner's fractional
part beats every loser's (with the index tie-break). -/
theorem apportion_characterization (xs : List ℚ) (T : Int) (out : List Int)
    (hok : apportion xs T = .ok out) :
    out.length = xs.length ∧
    (∀ k, out.getD k 0 = (baseAmounts xs).getD k 0 +
      (if k ∈ (((sortedFracs xs).map Prod.fst).take (T - (baseAmounts xs).sum).toNat : List Nat)
       then 1 else 0)) ∧
    (∀ k ∈ (((sortedFracs xs).map Prod.fst).take (T - (baseAmounts xs).sum).toNat : List Nat),
      ∀ j, j < xs.length →
      j ∉ (((sortedFracs xs).map Prod.fst).take (T - (baseAmounts xs).sum).toNat : List Nat) →
      (xs.getD j 0 - ((baseAmounts xs).getD j 0 : ℚ)
          < xs.getD k 0 - ((baseAmounts xs).getD k 0 : ℚ) ∨
        (xs.getD j 0 - ((baseAmounts xs).getD j 0 : ℚ)
            = xs.getD k 0 - ((baseAmounts xs).getD k 0 : ℚ) ∧ k < j))) := by
  have hr : (T - (baseAmounts xs).sum).toNat ≤ ((sortedFracs xs).map Prod.fst).length :=
    applyExtras_ok_le _ _ _ _ hok
  have hlt : ∀ i ∈ (sortedFracs xs).map Prod.fst, i < (baseAmounts xs).length := by
    intro i hi
    rw [baseAmounts, List.length_map]
    exact sortedFracs_fst_lt xs i hi
  obtain ⟨out', h1, h2, _, h4⟩ := applyExtras_ok ((sortedFracs xs).map Prod.fst)
    (T - (baseAmounts xs).sum).toNat (baseAmounts xs) hr hlt (sortedFracs_fst_nodup xs)
  rw [apportion, h1] at hok
  cases hok
  refine ⟨by rw [h2, baseAmounts, List.length_map], h4, ?_⟩
  intro k hk j hj hjn
  set r := (T - (baseAmounts xs).sum).toNat with hrdef
  have hmaptake : ((sortedFracs xs).map Prod.fst).take r =
      ((sortedFracs xs).take r).map Prod.fst := (List.map_take _ _ _).symm
  have hkmem : k ∈ ((sortedFracs xs).take r).map Prod.fst := by rwa [← hmaptake]
  obtain ⟨pk, hpk_mem, hpk_eq⟩ := List.mem_map.mp hkmem
  have hjmem : j ∈ ((sortedFracs xs).drop r).map Prod.fst := by
    have hjr : j ∈ (sortedFracs xs).map Prod.fst :=
      ((sortedFracs_fst_perm xs).mem_iff).mpr (List.mem_range.mpr hj)
    rw [← List.take_append_drop r (sortedFracs xs), List.map_append,
      List.mem_append] at hjr
    rcases hjr with h | h
    · exact absurd (by rwa [hmaptake]) hjn
    · exact h
  obtain ⟨pj, hpj_mem, hpj_eq⟩ := List.mem_map.mp hjmem
  have hsorted := sortedFracs_sorted xs
  rw [List.Sorted, ← List.take_append_drop r (sortedFracs xs),
    List.pairwise_append] at hsorted
  have horder : fracOrder pk pj := hsorted.2.2 pk hpk_mem pj hpj_mem
  have hfk : pk.2 = xs.getD k 0 - ((baseAmounts xs).getD k 0 : ℚ) := by
    rw [← hpk_eq]
    exact sortedFracs_mem_frac xs pk (List.mem_of_mem_take hpk_mem)
  have hfj : pj.2 = xs.getD j 0 - ((baseAmounts xs).getD j 0 : ℚ) := by
    rw [← hpj_eq]
    exact sortedFracs_mem_frac xs pj (List.mem_of_mem_drop hpj_mem)
  have hkj : k ≠ j := fun h => hjn (h ▸ hk)
  rcases horder with h | ⟨he, hi⟩
  · left
    rw [← hfk, ← hfj]
    exact h
  · right
    constructor
    · rw [← hfk, ← hfj, he]
    · rw [hpk_eq] at hi
      rw [hpj_eq] at hi
      omega

/-- C5: for a valid non-empty percentage-type split list and non-zero total
`T`, the result is the floor of each exact amount `(share/100)*T` plus one
extra unit precisely on the splits with the largest fractional parts
(`T - sum(floors)` of them, ties broken by ascending canonical index): every
winner's fractional part strictly beats every loser's, or ties with a smaller
canonical index. -/
theorem C5_percentage_largest_remainder (splits : List Split) (T : Int) (res : List Int)
    (hne : splits ≠ []) (hT : T ≠ 0)
    (hpct : ∀ s ∈ splits, s.shareType = "percentage")
    (hok : normalize_shares splits T = .ok res) :
    res.length = splits.length ∧
    (∀ k, k < splits.length →
      res.getD (((stableEnum splits).map Prod.fst).getD k 0) 0 =
        (baseAmounts (percExact splits T)).getD k 0 +
          (if k ∈ winnersList (percExact splits T) T then 1 else 0)) ∧
    (∀ k ∈ winnersList (percExact splits T) T,
      ∀ j, j < splits.length → j ∉ winnersList (percExact splits T) T →
        (fracOf (percExact splits T) j < fracOf (percExact splits T) k ∨
          (fracOf (percExact splits T) j = fracOf (percExact splits T) k ∧ k < j))) := by
  cases splits with
  | nil => exact absurd rfl hne
  | cons s0 rest =>
    obtain ⟨hall, amts, hb, hres⟩ := normalize_shares_ok_elim s0 rest T res hT hok
    rw [hpct s0 (by simp)] at hb
    rw [branchNormalize, if_neg (by decide), if_pos rfl] at hb
    unfold _normalize_percentage at hb
    by_cases htol :
        |((((stableEnum (s0 :: rest)).map Prod.snd).map (fun s => s.share)).sum : ℚ) - 100|
          > tolerance
    · rw [if_pos htol] at hb
      cases hb
    · rw [if_neg htol] at hb
      have hb' : apportion (percExact (s0 :: rest) T) T = .ok amts := hb
      obtain ⟨hlen, hchar, hdom⟩ := apportion_characterization _ T amts hb'
      have hxs_len : (percExact (s0 :: rest) T).length = (s0 :: rest).length := by
        rw [percExact, List.length_map, List.length_map, stableEnum_length]
      have hamts_len : amts.length = (stableEnum (s0 :: rest)).length := by
        rw [hlen, percExact, List.length_map, List.length_map]
      refine ⟨?_, ?_, ?_⟩
      · rw [hres, scatter_length]
      · intro k hk
        rw [hres, scatter_getD_at (stableEnum (s0 :: rest)) amts ((s0 :: rest).length)
          (stableEnum_fst_nodup _) (stableEnum_fst_lt _) hamts_len k
          (by rw [stableEnum_length]; exact hk)]
        exact hchar k
      · intro k hk j hj hjn
        exact hdom k hk j (by rwa [hxs_len]) hjn

/-! ### Order invariance machinery -/

instance : IsAntisymm String (· < ·) :=
  ⟨fun _ _ h1 h2 => absurd h2 (lt_asymm h1)⟩

theorem perm_map_eq_of_nodup {α β : Type} (f : α → β) :
    ∀ (l₁ l₂ : List α), l₁.Perm l₂ → l₁.map f = l₂.map f → (l₁.map f).Nodup → l₁ = l₂ := by
  intro l₁
  induction l₁ with
  | nil =>
    intro l₂ hperm _ _
    rw [hperm.nil_eq]
  | cons a t ih =>
    intro l₂ hperm hmap hnd
    cases l₂ with
    | nil => exact absurd hperm.symm (by simp)
    | cons b t₂ =>
      simp only [List.map_cons, List.cons.injEq] at hmap
      by_cases hab : a = b
      · subst hab
        rw [ih t₂ (hperm.cons_inv) hmap.2 (by simpa using (List.nodup_cons.mp hnd).2)]
      · exfalso
        have ha : a ∈ b :: t₂ := hperm.mem_iff.mp (by simp)
        have ha2 : a ∈ t₂ := by
          rcases List.mem_cons.mp ha with h | h
          · exact absurd h hab
          · exact h
        have : f a ∈ t₂.map f := List.mem_map_of_mem f ha2
        rw [← hmap.2] at this
        exact (List.nodup_cons.mp hnd).1 (hmap.1 ▸ this)

theorem stable_snd_sorted_le (splits : List Split) :
    List.Pairwise (fun s t : Split => s.participantId ≤ t.participantId)
      ((stableEnum splits).map Prod.snd) := by
  apply List.Pairwise.map Prod.snd ?_ (stableEnum_sorted splits)
  intro a b hab
  rcases hab with h | ⟨he, _⟩
  · exact le_of_lt h
  · exact le_of_eq he

theorem stable_snd_eq (splits splits' : List Split)
    (hperm : splits'.Perm splits)
    (hnd : (splits.map (fun s => s.participantId)).Nodup) :
    (stableEnum splits').map Prod.snd = (stableEnum splits).map Prod.snd := by
  have hA : ((stableEnum splits).map Prod.snd).Perm splits := stableEnum_snd_perm splits
  have hA' : ((stableEnum splits').map Prod.snd).Perm splits' := stableEnum_snd_perm splits'
  have hAA : ((stableEnum splits').map Prod.snd).Perm ((stableEnum splits).map Prod.snd) :=
    (hA'.trans hperm).trans hA.symm
  have hnodup : (((stableEnum splits).map Prod.snd).map (fun s => s.participantId)).Nodup :=
    ((hA.map (fun s => s.participantId)).nodup_iff).mpr hnd
  have hnodup' : (((stableEnum splits').map Prod.snd).map (fun s => s.participantId)).Nodup :=
    ((hAA.map (fun s => s.participantId)).nodup_iff).mpr hnodup
  have hstrict : ∀ (l : List Split),
      List.Pairwise (fun s t : Split => s.participantId ≤ t.participantId) l →
      (l.map (fun s => s.participantId)).Nodup →
      List.Pairwise (· < ·) (l.map (fun s => s.participantId)) := by
    intro l hle hnodupl
    have h1 : List.Pairwise (fun x y : String => x ≤ y) (l.map (fun s => s.participantId)) :=
      List.Pairwise.map _ (fun a b h => h) hle
    have h2 : List.Pairwise (fun x y : String => x ≠ y) (l.map (fun s => s.participantId)) :=
      hnodupl
    exact (h1.and h2).imp (fun h => lt_of_le_of_ne h.1 h.2)
  have hpid_eq : ((stableEnum splits').map Prod.snd).map (fun s => s.participantId) =
      ((stableEnum splits).map Prod.snd).map (fun s => s.participantId) :=
    List.eq_of_perm_of_sorted (hAA.map (fun s => s.participantId))
      (hstrict _ (stable_snd_sorted_le splits') hnodup')
      (hstrict _ (stable_snd_sorted_le splits) hnodup)
  exact perm_map_eq_of_nodup (fun s => s.participantId) _ _ hAA hpid_eq hnodup'

theorem zip_scatter_perm (splits : List Split) (amts : List Int)
    (hlen : amts.length = (stableEnum splits).length) :
    (splits.zip (scatter (stableEnum splits) amts splits.length)).Perm
      (((stableEnum splits).map Prod.snd).zip amts) := by
  have hslen : (stableEnum splits).length = splits.length := stableEnum_length splits
  have hreslen : (scatter (stableEnum splits) amts splits.length).length = splits.length :=
    scatter_length _ _ _
  have hfst_len : ((stableEnum splits).map Prod.fst).length = splits.length := by
    rw [List.length_map, hslen]
  have hzip_snd_len : (((stableEnum splits).map Prod.snd).zip amts).length = splits.length := by
    rw [List.length_zip, List.length_map, hslen]
    omega
  have hassoc_fst : (((stableEnum splits).map Prod.fst).zip
      ((((stableEnum splits).map Prod.snd)).zip amts)).map Prod.fst =
      (stableEnum splits).map Prod.fst :=
    List.map_fst_zip _ _ (by rw [hfst_len, hzip_snd_len])
  have hassoc_snd : (((stableEnum splits).map Prod.fst).zip
      ((((stableEnum splits).map Prod.snd)).zip amts)).map Prod.snd =
      (((stableEnum splits).map Prod.snd)).zip amts :=
    List.map_snd_zip _ _ (by rw [hfst_len, hzip_snd_len])
  have hg : ∀ p ∈ ((stableEnum splits).map Prod.fst).zip
      ((((stableEnum splits).map Prod.snd)).zip amts),
      (splits.getD p.1 ⟨"", "", 0, none⟩,
        (scatter (stableEnum splits) amts splits.length).getD p.1 0) = p.2 := by
    intro p hp
    obtain ⟨⟨k, hk⟩, hget⟩ := List.get_of_mem hp
    rw [List.get_eq_getElem, List.getElem_zip] at hget
    have hk2 : k < (stableEnum splits).length := by
      rw [List.length_zip, hfst_len, hzip_snd_len] at hk
      omega
    have hk3 : k < amts.length := by omega
    have hp1 : p.1 = ((stableEnum splits).get ⟨k, hk2⟩).1 := by
      rw [← hget]
      simp [List.getElem_map]
    have hp2 : p.2 = (((stableEnum splits).get ⟨k, hk2⟩).2, amts.get ⟨k, hk3⟩) := by
      rw [← hget]
      simp [List.getElem_zip, List.getElem_map]
    have hmem_stable : (stableEnum splits).get ⟨k, hk2⟩ ∈ stableEnum splits :=
      List.get_mem _ _ _
    have hget2 := stableEnum_get? splits _ hmem_stable
    have hfst_val : splits.getD (((stableEnum splits).get ⟨k, hk2⟩).1)
        (⟨"", "", 0, none⟩ : Split) = ((stableEnum splits).get ⟨k, hk2⟩).2 := by
      rw [List.getD_eq_getD_get?, hget2]
      rfl
    have hmempair : ((((stableEnum splits).get ⟨k, hk2⟩).1 : Nat), amts.get ⟨k, hk3⟩) ∈
        ((stableEnum splits).map Prod.fst).zip amts := by
      rw [List.mem_iff_get]
      refine ⟨⟨k, by rw [List.length_zip, hfst_len]; omega⟩, ?_⟩
      rw [List.get_eq_getElem, List.getElem_zip]
      simp [List.getElem_map]
    have hsnd_val := scatter_getD (stableEnum splits) amts splits.length
      (stableEnum_fst_nodup splits) (stableEnum_fst_lt splits) (by rw [hlen]) _ hmempair
    rw [hp1, hp2, hfst_val, hsnd_val]
  have hmain := gather_perm (((stableEnum splits).map Prod.fst).zip
      ((((stableEnum splits).map Prod.snd)).zip amts)) splits.length
    (fun j => (splits.getD j ⟨"", "", 0, none⟩,
      (scatter (stableEnum splits) amts splits.length).getD j 0))
    (by rw [hassoc_fst]; exact stableEnum_fst_perm splits) hg
  rw [hassoc_snd] at hmain
  have hzip_eq : splits.zip (scatter (stableEnum splits) amts splits.length) =
      (List.range splits.length).map
        (fun j => (splits.getD j ⟨"", "", 0, none⟩,
          (scatter (stableEnum splits) amts splits.length).getD j 0)) := by
    have hlen_zip : (splits.zip (scatter (stableEnum splits) amts splits.length)).length =
        splits.length := by
      rw [List.length_zip, hreslen]
      omega
    have h0 := eq_range_map
      (fun j => (splits.getD j ⟨"", "", 0, none⟩,
        (scatter (stableEnum splits) amts splits.length).getD j 0))
      (splits.zip (scatter (stableEnum splits) amts splits.length))
      (by
        intro i h
        have hi1 : i < splits.length := by
          rw [hlen_zip] at h
          exact h
        have hi2 : i < (scatter (stableEnum splits) amts splits.length).length := by omega
        rw [List.get_eq_getElem, List.getElem_zip]
        show (splits[i], (scatter (stableEnum splits) amts splits.length)[i]) =
          (splits.getD i (⟨"", "", 0, none⟩ : Split),
            (scatter (stableEnum splits) amts splits.length).getD i 0)
        rw [List.getD_eq_getElem _ _ hi1, List.getD_eq_getElem _ _ hi2])
    rwa [hlen_zip] at h0
  rw [hzip_eq]
  exact hmain

theorem zip_replicate_self {α : Type} (l : List α) (c : Int) :
    l.zip (List.replicate l.length c) = l.map (fun a => (a, c)) := by
  induction l with
  | nil => rfl
  | cons a t ih => simp [List.replicate_succ, ih]

theorem branchNormalize_length (ty : String) (ss : List Split) (T : Int) (amts : List Int)
    (h : branchNormalize ty ss T = .ok amts) : amts.length = ss.length := by
  unfold branchNormalize at h
  by_cases h1 : ty = "equal"
  · rw [if_pos h1] at h
    cases h
    rw [_normalize_equal, (foldl_incAt_range _ _).1, List.length_replicate]
  · rw [if_neg h1] at h
    by_cases h2 : ty = "percentage"
    · rw [if_pos h2] at h
      unfold _normalize_percentage at h
      by_cases h3 : |((ss.map (fun s => s.share)).sum : ℚ) - 100| > tolerance
      · rw [if_pos h3] at h
        cases h
      · rw [if_neg h3] at h
        rw [(apportion_characterization _ _ _ h).1, List.length_map]
    · rw [if_neg h2] at h
      by_cases h4 : ty = "weight"
      · rw [if_pos h4] at h
        unfold _normalize_weight at h
        by_cases h5 : ((ss.map (fun s => s.share)).sum : ℚ) ≤ 0
        · rw [if_pos h5] at h
          cases h
        · rw [if_neg h5] at h
          rw [(apportion_characterization _ _ _ h).1, List.length_map]
      · rw [if_neg h4] at h
        by_cases h6 : ty = "amount"
        · rw [if_pos h6] at h
          unfold _normalize_amount at h
          by_cases h7 : (ss.filter (fun s => s.amount.isNone)).length ≠ 0
          · rw [if_pos h7] at h
            cases h
          · rw [if_neg h7] at h
            by_cases h8 : (ss.map (fun s => s.amount.getD 0)).sum ≠ T
            · rw [if_pos h8] at h
              cases h
            · rw [if_neg h8] at h
              cases h
              rw [List.length_map]
        · rw [if_neg h6] at h
          cases h

/-- C3: for split lists with pairwise-distinct participant identifiers,
normalization is order invariant — on any permutation of the input it pairs
every split with the same amount as on the original order, only the output
positions move with the input positions (the input-output pairing is the same
multiset). -/
theorem C3_order_invariance (splits splits' : List Split) (T : Int) (res res' : List Int)
    (hperm : splits'.Perm splits)
    (hnd : (splits.map (fun s => s.participantId)).Nodup)
    (hok : normalize_shares splits T = .ok res)
    (hok' : normalize_shares splits' T = .ok res') :
    (splits'.zip res').Perm (splits.zip res) := by
  cases splits with
  | nil =>
    have h2 : splits' = [] := hperm.eq_nil
    subst h2
    simp only [normalize_shares] at hok hok'
    cases hok
    cases hok'
    simp
  | cons s0 rest =>
    cases splits' with
    | nil =>
      have := hperm.length_eq
      simp at this
    | cons s0' rest' =>
      by_cases hT : T = 0
      · subst hT
        simp only [normalize_shares] at hok hok'
        rw [if_pos trivial] at hok hok'
        cases hok
        cases hok'
        rw [zip_replicate_self, zip_replicate_self]
        exact hperm.map _
      · obtain ⟨hall, amts, hb, hres⟩ := normalize_shares_ok_elim s0 rest T res hT hok
        obtain ⟨_, amts', hb', hres'⟩ := normalize_shares_ok_elim s0' rest' T res' hT hok'
        have hss : (stableEnum (s0' :: rest')).map Prod.snd
            = (stableEnum (s0 :: rest)).map Prod.snd :=
          stable_snd_eq _ _ hperm hnd
        have hty : s0'.shareType = s0.shareType := by
          have hmem : s0' ∈ s0 :: rest := hperm.mem_iff.mp (by simp)
          have := (List.all_eq_true.mp hall) s0' hmem
          simpa using this
        rw [hss, hty, hb] at hb'
        have hamts : amts = amts' := by
          injection hb'
        subst hamts
        have hlen : amts.length = (stableEnum (s0 :: rest)).length := by
          rw [branchNormalize_length _ _ _ _ hb, List.length_map]
        have hlen' : amts.length = (stableEnum (s0' :: rest')).length := by
          have : (stableEnum (s0' :: rest')).length = (stableEnum (s0 :: rest)).length := by
            rw [stableEnum_length, stableEnum_length, hperm.length_eq]
          rw [this]
          exact hlen
        have hz := zip_scatter_perm (s0 :: rest) amts hlen
        have hz' := zip_scatter_perm (s0' :: rest') amts hlen'
        rw [hss] at hz'
        rw [hres, hres']
        exact hz'.trans hz.symm

/-- Witness for `C3_order_invariance`: swapping two equal splits permutes the
output positions while pairing each split with the same amount. -/
theorem C3_witness :
    normalize_shares [⟨"a", "equal", 0, none⟩, ⟨"b", "equal", 0, none⟩] 3 = .ok [2, 1] ∧
    normalize_shares [⟨"b", "equal", 0, none⟩, ⟨"a", "equal", 0, none⟩] 3 = .ok [1, 2] ∧
    (([⟨"b", "equal", 0, none⟩, ⟨"a", "equal", 0, none⟩] : List Split).zip
        ([1, 2] : List Int)).Perm
      (([⟨"a", "equal", 0, none⟩, ⟨"b", "equal", 0, none⟩] : List Split).zip
        ([2, 1] : List Int)) := by
  have h1 : normalize_shares [⟨"a", "equal", 0, none⟩, ⟨"b", "equal", 0, none⟩] 3 =
      .ok [2, 1] := by
    have hstable : stableEnum [⟨"a", "equal", 0, none⟩, ⟨"b", "equal", 0, none⟩] =
        [(0, ⟨"a", "equal", 0, none⟩), (1, ⟨"b", "equal", 0, none⟩)] := by
      simp +decide [stableEnum, List.enum, List.enumFrom, List.insertionSort,
        List.orderedInsert, splitLE]
    simp only [normalize_shares]
    rw [if_neg (by norm_num), if_pos (by decide)]
    simp only [hstable, List.map_cons, List.map_nil]
    decide
  have h2 : normalize_shares [⟨"b", "equal", 0, none⟩, ⟨"a", "equal", 0, none⟩] 3 =
      .ok [1, 2] := by
    have hstable : stableEnum [⟨"b", "equal", 0, none⟩, ⟨"a", "equal", 0, none⟩] =
        [(1, ⟨"a", "equal", 0, none⟩), (0, ⟨"b", "equal", 0, none⟩)] := by
      simp +decide [stableEnum, List.enum, List.enumFrom, List.insertionSort,
        List.orderedInsert, splitLE]
    simp only [normalize_shares]
    rw [if_neg (by norm_num), if_pos (by decide)]
    simp only [hstable, List.map_cons, List.map_nil]
    decide
  refine ⟨h1, h2, ?_⟩
  exact C3_order_invariance
    [⟨"a", "equal", 0, none⟩, ⟨"b", "equal", 0, none⟩]
    [⟨"b", "equal", 0, none⟩, ⟨"a", "equal", 0, none⟩]
    3 [2, 1] [1, 2]
    (List.Perm.swap (⟨"a", "equal", 0, none⟩ : Split) (⟨"b", "equal", 0, none⟩ : Split) [])
    (by decide) h1 h2

/-- Witness for `C4_equal_split`: three equal splits of 100 — base 33, one
extra unit to the canonically first participant. -/
theorem C4_witness :
    ∃ res, normalize_shares
        [⟨"a", "equal", 0, none⟩, ⟨"b", "equal", 0, none⟩, ⟨"c", "equal", 0, none⟩] 100 =
        .ok res ∧
      res.length = ([⟨"a", "equal", 0, none⟩, ⟨"b", "equal", 0, none⟩,
        ⟨"c", "equal", 0, none⟩] : List Split).length ∧
      ∀ k, k < ([⟨"a", "equal", 0, none⟩, ⟨"b", "equal", 0, none⟩,
          ⟨"c", "equal", 0, none⟩] : List Split).length →
        res.getD (((stableEnum [⟨"a", "equal", 0, none⟩, ⟨"b", "equal", 0, none⟩,
            ⟨"c", "equal", 0, none⟩]).map Prod.fst).getD k 0) 0 =
          Int.fdiv 100 ([⟨"a", "equal", 0, none⟩, ⟨"b", "equal", 0, none⟩,
              ⟨"c", "equal", 0, none⟩] : List Split).length +
            (if (k : Int) < 100 - Int.fdiv 100 ([⟨"a", "equal", 0, none⟩,
                ⟨"b", "equal", 0, none⟩, ⟨"c", "equal", 0, none⟩] : List Split).length *
                ([⟨"a", "equal", 0, none⟩, ⟨"b", "equal", 0, none⟩,
                  ⟨"c", "equal", 0, none⟩] : List Split).length then 1 else 0) :=
  C4_equal_split [⟨"a", "equal", 0, none⟩, ⟨"b", "equal", 0, none⟩, ⟨"c", "equal", 0, none⟩]
    100 (by simp) (by decide) (by simp)

/-- Witness for `C5_percentage_largest_remainder` at shares
`[33.34, 33.33, 33.33]` and `T = 100`, where the result is `[34, 33, 33]`. -/
theorem C5_witness :
    normalize_shares
        [⟨"a", "percentage", 3334/100, none⟩, ⟨"b", "percentage", 3333/100, none⟩,
          ⟨"c", "percentage", 3333/100, none⟩] 100 = Except.ok [34, 33, 33] ∧
    ([34, 33, 33] : List Int).length =
      ([⟨"a", "percentage", 3334/100, none⟩, ⟨"b", "percentage", 3333/100, none⟩,
        ⟨"c", "percentage", 3333/100, none⟩] : List Split).length := by
  have heval :
      normalize_shares
          [⟨"a", "percentage", 3334/100, none⟩, ⟨"b", "percentage", 3333/100, none⟩,
            ⟨"c", "percentage", 3333/100, none⟩] 100 =
        Except.ok [34, 33, 33] := by
    have hstable :
        stableEnum [⟨"a", "percentage", 3334/100, none⟩, ⟨"b", "percentage", 3333/100, none⟩,
            ⟨"c", "percentage", 3333/100, none⟩] =
          [(0, ⟨"a", "percentage", 3334/100, none⟩), (1, ⟨"b", "percentage", 3333/100, none⟩),
            (2, ⟨"c", "percentage", 3333/100, none⟩)] := by
      simp +decide [stableEnum, List.enum, List.enumFrom, List.insertionSort,
        List.orderedInsert, splitLE]
    have hbase : baseAmounts [(3334/100 : ℚ), 3333/100, 3333/100] = [33, 33, 33] := by
      norm_num [baseAmounts, Int.floor_eq_iff]
    have hfrac : fracPairs [(3334/100 : ℚ), 3333/100, 3333/100] =
        [(0, 17/50), (1, 33/100), (2, 33/100)] := by
      norm_num [fracPairs, baseAmounts, List.range_succ, Int.floor_eq_iff]
    have hsorted : sortedFracs [(3334/100 : ℚ), 3333/100, 3333/100] =
        [(0, 17/50), (1, 33/100), (2, 33/100)] := by
      rw [sortedFracs, hfrac]
      norm_num +decide [List.insertionSort, List.orderedInsert, fracOrder]
    have happ : apportion [(3334/100 : ℚ), 3333/100, 3333/100] 100 = .ok [34, 33, 33] := by
      rw [apportion, hsorted, hbase]
      norm_num [applyExtras, incAt]
    have hexact :
        ([⟨"a", "percentage", 3334/100, none⟩, ⟨"b", "percentage", 3333/100, none⟩,
            ⟨"c", "percentage", 3333/100, none⟩] : List Split).map
          (fun s => s.share / 100 * ((100 : Int) : ℚ)) = [(3334/100 : ℚ), 3333/100, 3333/100] := by
      norm_num
    have hpct :
        _normalize_percentage
          [⟨"a", "percentage", 3334/100, none⟩, ⟨"b", "percentage", 3333/100, none⟩,
            ⟨"c", "percentage", 3333/100, none⟩] 100 = .ok [34, 33, 33] := by
      unfold _normalize_percentage
      rw [if_neg (by
        rw [not_lt]
        have hsum :
            ((([⟨"a", "percentage", 3334/100, none⟩, ⟨"b", "percentage", 3333/100, none⟩,
              ⟨"c", "percentage", 3333/100, none⟩] :
              List Split).map (fun s => s.share)).sum : ℚ) = 100 := by
          norm_num
        rw [hsum]
        norm_num [tolerance])]
      rw [hexact, happ]
    simp only [normalize_shares]
    rw [if_neg (by norm_num), if_pos (by decide)]
    simp only [hstable, List.map_cons, List.map_nil]
    rw [branchNormalize, if_neg (by decide), if_pos rfl, hpct]
    simp only [Except.map]
    rw [scatter]
    norm_num [List.set]
  exact ⟨heval,
    (C5_percentage_largest_remainder
      [⟨"a", "percentage", 3334/100, none⟩, ⟨"b", "percentage", 3333/100, none⟩,
        ⟨"c", "percentage", 3333/100, none⟩] 100 [34, 33, 33]
      (by simp) (by decide) (by simp) heval).1⟩

/-! ### Settlement loop lemmas -/

theorem netFrom_cons (x : String) (s : Settlement) (l : List Settlement) :
    netFrom x (s :: l) = (if s.from_ = x then s.amount else 0) + netFrom x l := by
  unfold netFrom
  rw [List.filter_cons]
  by_cases h : s.from_ = x
  · simp [h]
  · simp [h]

theorem netTo_cons (x : String) (s : Settlement) (l : List Settlement) :
    netTo x (s :: l) = (if s.to_ = x then s.amount else 0) + netTo x l := by
  unfold netTo
  rw [List.filter_cons]
  by_cases h : s.to_ = x
  · simp [h]
  · simp [h]

theorem netFrom_eq_zero (x : String) (l : List Settlement)
    (h : ∀ s ∈ l, s.from_ ≠ x) : netFrom x l = 0 := by
  unfold netFrom
  rw [List.filter_eq_nil.mpr (by intro s hs; simpa using h s hs)]
  rfl

theorem netTo_eq_zero (x : String) (l : List Settlement)
    (h : ∀ s ∈ l, s.to_ ≠ x) : netTo x l = 0 := by
  unfold netTo
  rw [List.filter_eq_nil.mpr (by intro s hs; simpa using h s hs)]
  rfl

/-- Every emitted settlement's payer is the looked-up name of some debtor in
the list and its payee the looked-up name of some creditor. -/
theorem settleLoop_payers (parts : List (String × String))
    (ds cs : List (String × Int)) :
    ∀ s ∈ settleLoop parts ds cs,
      (∃ d ∈ ds, s.from_ = dictGet parts d.1 "Unknown") ∧
      (∃ c ∈ cs, s.to_ = dictGet parts c.1 "Unknown") := by
  induction ds, cs using settleLoop.induct parts with
  | case1 cs => simp [settleLoop]
  | case2 d ds => simp [settleLoop]
  | case3 d ds c cs ih =>
    intro s hs
    rw [settleLoop] at hs
    rcases List.mem_cons.mp hs with rfl | hs'
    · exact ⟨⟨d, by simp, rfl⟩, ⟨c, by simp, rfl⟩⟩
    · obtain ⟨⟨dd, hdd, he⟩, ⟨cc, hcc, he2⟩⟩ := ih s hs'
      constructor
      · by_cases h1 : |d.2 + min |d.2| c.2| < 1
        · rw [dif_pos h1] at hdd
          exact ⟨dd, List.mem_cons_of_mem _ hdd, he⟩
        · rw [dif_neg h1] at hdd
          rcases List.mem_cons.mp hdd with rfl | hdd'
          · exact ⟨d, by simp, he⟩
          · exact ⟨dd, List.mem_cons_of_mem _ hdd', he⟩
      · by_cases h2 : c.2 - min |d.2| c.2 < 1
        · rw [dif_pos h2] at hcc
          exact ⟨cc, List.mem_cons_of_mem _ hcc, he2⟩
        · rw [dif_neg h2] at hcc
          rcases List.mem_cons.mp hcc with rfl | hcc'
          · exact ⟨c, by simp, he2⟩
          · exact ⟨cc, List.mem_cons_of_mem _ hcc', he2⟩

/-- Under the debtor/creditor sign invariant, each loop iteration retires at
least one list entry, so at most `d + c - 1` settlements are emitted. -/
theorem settleLoop_length_le (parts : List (String × String))
    (ds cs : List (String × Int))
    (hd : ∀ p ∈ ds, p.2 < 0) (hc : ∀ p ∈ cs, 0 < p.2) :
    (settleLoop parts ds cs).length ≤ ds.length + cs.length - 1 := by
  revert hd hc
  induction ds, cs using settleLoop.induct parts with
  | case1 cs => intro _ _; simp [settleLoop]
  | case2 d ds => intro _ _; simp [settleLoop]
  | case3 d ds c cs ih =>
    intro hd hc
    have hd0 : d.2 < 0 := hd d (by simp)
    have hc0 : 0 < c.2 := hc c (by simp)
    have habs : |d.2| = -d.2 := abs_of_neg hd0
    have hmin : min |d.2| c.2 = |d.2| ∨ min |d.2| c.2 = c.2 := min_choice _ _
    have hminle1 : min |d.2| c.2 ≤ |d.2| := min_le_left _ _
    have hminle2 : min |d.2| c.2 ≤ c.2 := min_le_right _ _
    rw [settleLoop]
    by_cases h1 : |d.2 + min |d.2| c.2| < 1 <;> by_cases h2 : c.2 - min |d.2| c.2 < 1
    · rw [dif_pos h1, dif_pos h2] at ih
      rw [if_pos h1, if_pos h2]
      have := ih (fun p hp => hd p (List.mem_cons_of_mem _ hp))
        (fun p hp => hc p (List.mem_cons_of_mem _ hp))
      simp only [List.length_cons]
      omega
    · rw [dif_pos h1, dif_neg h2] at ih
      rw [if_pos h1, if_neg h2]
      have := ih (fun p hp => hd p (List.mem_cons_of_mem _ hp))
        (by
          intro p hp
          rcases List.mem_cons.mp hp with rfl | hp'
          · show (0 : Int) < c.2 - min |d.2| c.2
            omega
          · exact hc p (List.mem_cons_of_mem _ hp'))
      simp only [List.length_cons] at this ⊢
      omega
    · rw [dif_neg h1, dif_pos h2] at ih
      rw [if_neg h1, if_pos h2]
      have := ih
        (by
          intro p hp
          rcases List.mem_cons.mp hp with rfl | hp'
          · show d.2 + min |d.2| c.2 < 0
            rcases abs_cases (d.2 + min |d.2| c.2) with ⟨hA, _⟩ | ⟨hA, _⟩ <;> omega
          · exact hd p (List.mem_cons_of_mem _ hp'))
        (fun p hp => hc p (List.mem_cons_of_mem _ hp))
      simp only [List.length_cons] at this ⊢
      omega
    · exfalso
      rcases abs_cases (d.2 + min |d.2| c.2) with ⟨hA, _⟩ | ⟨hA, _⟩ <;> omega

/-- Under the sign invariant every emitted settlement moves at least one
minor unit. -/
theorem settleLoop_amount_pos (parts : List (String × String))
    (ds cs : List (String × Int))
    (hd : ∀ p ∈ ds, p.2 < 0) (hc : ∀ p ∈ cs, 0 < p.2) :
    ∀ s ∈ settleLoop parts ds cs, 1 ≤ s.amount := by
  revert hd hc
  induction ds, cs using settleLoop.induct parts with
  | case1 cs => intro _ _; simp [settleLoop]
  | case2 d ds => intro _ _; simp [settleLoop]
  | case3 d ds c cs ih =>
    intro hd hc s hs
    have hd0 : d.2 < 0 := hd d (by simp)
    have hc0 : 0 < c.2 := hc c (by simp)
    have habs : |d.2| = -d.2 := abs_of_neg hd0
    rw [settleLoop] at hs
    rcases List.mem_cons.mp hs with rfl | hs'
    · show (1 : Int) ≤ min |d.2| c.2
      omega
    · revert hs'
      by_cases h1 : |d.2 + min |d.2| c.2| < 1 <;> by_cases h2 : c.2 - min |d.2| c.2 < 1 <;>
        [rw [dif_pos h1, dif_pos h2] at ih; rw [dif_pos h1, dif_neg h2] at ih;
          rw [dif_neg h1, dif_pos h2] at ih; rw [dif_neg h1, dif_neg h2] at ih] <;>
        [rw [if_pos h1, if_pos h2]; rw [if_pos h1, if_neg h2];
          rw [if_neg h1, if_pos h2]; rw [if_neg h1, if_neg h2]] <;>
      intro hs' <;>
      refine ih ?_ ?_ s hs' <;>
      intro p hp
      · exact hd p (List.mem_cons_of_mem _ hp)
      · exact hc p (List.mem_cons_of_mem _ hp)
      · exact hd p (List.mem_cons_of_mem _ hp)
      · rcases List.mem_cons.mp hp with rfl | hp'
        · show (0 : Int) < c.2 - min |d.2| c.2
          omega
        · exact hc p (List.mem_cons_of_mem _ hp')
      · rcases List.mem_cons.mp hp with rfl | hp'
        · show d.2 + min |d.2| c.2 < 0
          rcases abs_cases (d.2 + min |d.2| c.2) with ⟨hA, _⟩ | ⟨hA, _⟩ <;> omega
        · exact hd p (List.mem_cons_of_mem _ hp')
      · exact hc p (List.mem_cons_of_mem _ hp)
      · rcases List.mem_cons.mp hp with rfl | hp'
        · show d.2 + min |d.2| c.2 < 0
          rcases abs_cases (d.2 + min |d.2| c.2) with ⟨hA, _⟩ | ⟨hA, _⟩ <;> omega
        · exact hd p (List.mem_cons_of_mem _ hp')
      · rcases List.mem_cons.mp hp with rfl | hp'
        · show (0 : Int) < c.2 - min |d.2| c.2
          omega
        · exact hc p (List.mem_cons_of_mem _ hp')

/-- C2: `resolve_debts` (a total function — the loop terminates on every
input, including non-zero-sum balances, by the well-founded measure of
`settleLoop`) emits at most `d + c - 1` settlements for `d` debtors and `c`
creditors. -/
theorem C2_settlement_bound (balances : List (String × Int))
    (participants : List (String × String)) :
    (resolve_debts balances participants).length ≤
      (balances.filter (fun p => p.2 < 0)).length +
        (balances.filter (fun p => 0 < p.2)).length - 1 := by
  have hd : ∀ p ∈ List.insertionSort debtLE (balances.filter (fun p => p.2 < 0)), p.2 < 0 := by
    intro p hp
    have h2 := List.mem_filter.mp ((List.perm_insertionSort debtLE _).mem_iff.mp hp)
    simpa using h2.2
  have hc : ∀ p ∈ List.insertionSort credLE (balances.filter (fun p => 0 < p.2)), 0 < p.2 := by
    intro p hp
    have h2 := List.mem_filter.mp ((List.perm_insertionSort credLE _).mem_iff.mp hp)
    simpa using h2.2
  have hbound := settleLoop_length_le participants _ _ hd hc
  rw [List.length_insertionSort, List.length_insertionSort] at hbound
  exact hbound

/-- C10: every settlement emitted by `resolve_debts` transfers at least one
minor unit, because the loop only matches a debtor with balance ≤ -1 against
a creditor with balance ≥ 1. -/
theorem C10_amount_positive (balances : List (String × Int))
    (participants : List (String × String)) :
    ∀ s ∈ resolve_debts balances participants, 1 ≤ s.amount := by
  have hd : ∀ p ∈ List.insertionSort debtLE (balances.filter (fun p => p.2 < 0)), p.2 < 0 := by
    intro p hp
    have h2 := List.mem_filter.mp ((List.perm_insertionSort debtLE _).mem_iff.mp hp)
    simpa using h2.2
  have hc : ∀ p ∈ List.insertionSort credLE (balances.filter (fun p => 0 < p.2)), 0 < p.2 := by
    intro p hp
    have h2 := List.mem_filter.mp ((List.perm_insertionSort credLE _).mem_iff.mp hp)
    simpa using h2.2
  exact settleLoop_amount_pos participants _ _ hd hc

/-- Witness for `C10_amount_positive`: the single settlement of
`{a: -5, b: 5}` moves 5 ≥ 1 units. -/
theorem C10_witness : (1 : Int) ≤ (⟨"Unknown", "Unknown", 5⟩ : Settlement).amount := by
  have heval : resolve_debts [("a", -5), ("b", 5)] [] = [⟨"Unknown", "Unknown", 5⟩] := by
    simp +decide [resolve_debts, List.insertionSort, List.orderedInsert, settleLoop, dictGet,
      debtLE, credLE]
  exact C10_amount_positive [("a", -5), ("b", 5)] [] ⟨"Unknown", "Unknown", 5⟩
    (by rw [heval]; simp)

theorem dictGet_cases (m : List (String × String)) (k dflt : String) :
    dictGet m k dflt = dflt ∨ ∃ p ∈ m, dictGet m k dflt = p.2 := by
  unfold dictGet
  cases hf : m.find? (fun p => p.1 == k) with
  | none => exact Or.inl rfl
  | some p => exact Or.inr ⟨p, List.mem_of_find?_eq_some hf, rfl⟩

/-- C7: `resolve_debts` never fails on a display-name lookup miss — an
identifier absent from the `names` mapping is rendered as the literal
"Unknown", and every emitted settlement's payer/payee field is either a
mapped display name or that placeholder. -/
theorem C7_unknown_fallback (balances : List (String × Int))
    (participants : List (String × String)) :
    (∀ x, x ∉ participants.map Prod.fst → dictGet participants x "Unknown" = "Unknown") ∧
    (∀ s ∈ resolve_debts balances participants,
      (s.from_ = "Unknown" ∨ ∃ p ∈ participants, s.from_ = p.2) ∧
      (s.to_ = "Unknown" ∨ ∃ p ∈ participants, s.to_ = p.2)) := by
  constructor
  · intro x hx
    unfold dictGet
    rw [List.find?_eq_none.mpr ?_]
    intro p hp hbeq
    exact hx ((by simpa using hbeq : p.1 = x) ▸ List.mem_map_of_mem Prod.fst hp)
  · intro s hs
    obtain ⟨⟨d, _, he⟩, ⟨c, _, he2⟩⟩ := settleLoop_payers participants _ _ s hs
    constructor
    · rcases dictGet_cases participants d.1 "Unknown" with h | ⟨p, hp, h⟩
      · exact Or.inl (he.trans h)
      · exact Or.inr ⟨p, hp, he.trans h⟩
    · rcases dictGet_cases participants c.1 "Unknown" with h | ⟨p, hp, h⟩
      · exact Or.inl (he2.trans h)
      · exact Or.inr ⟨p, hp, he2.trans h⟩

/-- Witness for `C7_unknown_fallback`: debtor "a" is missing from the names
mapping and is rendered as "Unknown" while the settlement is still emitted. -/
theorem C7_witness :
    dictGet [("b", "Bob")] "a" "Unknown" = "Unknown" ∧
    ((⟨"Unknown", "Bob", 5⟩ : Settlement).from_ = "Unknown" ∨
      ∃ p ∈ ([("b", "Bob")] : List (String × String)),
        (⟨"Unknown", "Bob", 5⟩ : Settlement).from_ = p.2) := by
  have heval : resolve_debts [("a", -5), ("b", 5)] [("b", "Bob")] = [⟨"Unknown", "Bob", 5⟩] := by
    simp +decide [resolve_debts, List.insertionSort, List.orderedInsert, settleLoop, dictGet,
      debtLE, credLE]
  exact ⟨(C7_unknown_fallback [("a", -5), ("b", 5)] [("b", "Bob")]).1 "a" (by decide),
    ((C7_unknown_fallback [("a", -5), ("b", 5)] [("b", "Bob")]).2 ⟨"Unknown", "Bob", 5⟩
      (by rw [heval]; simp)).1⟩

theorem sum_pos_of_all_pos (l : List (String × Int))
    (h : ∀ p ∈ l, 0 < p.2) (hne : l ≠ []) : 0 < (l.map Prod.snd).sum := by
  induction l with
  | nil => exact absurd rfl hne
  | cons a t ih =>
    rcases eq_or_ne t [] with rfl | ht
    · simpa using h a (by simp)
    · have h1 := h a (by simp)
      have h2 := ih (fun p hp => h p (List.mem_cons_of_mem _ hp)) ht
      simp only [List.map_cons, List.sum_cons]
      omega

theorem sum_neg_of_all_neg (l : List (String × Int))
    (h : ∀ p ∈ l, p.2 < 0) (hne : l ≠ []) : (l.map Prod.snd).sum < 0 := by
  induction l with
  | nil => exact absurd rfl hne
  | cons a t ih =>
    rcases eq_or_ne t [] with rfl | ht
    · simpa using h a (by simp)
    · have h1 := h a (by simp)
      have h2 := ih (fun p hp => h p (List.mem_cons_of_mem _ hp)) ht
      simp only [List.map_cons, List.sum_cons]
      omega

/-- On zero-sum signed lists with distinct identifiers mapped to themselves,
the greedy loop settles everyone in full: each debtor pays exactly its debt
and each creditor receives exactly its credit. -/
theorem settleLoop_nets (parts : List (String × String))
    (ds cs : List (String × Int))
    (hd : ∀ p ∈ ds, p.2 < 0) (hc : ∀ p ∈ cs, 0 < p.2)
    (hlook : ∀ p ∈ ds ++ cs, dictGet parts p.1 "Unknown" = p.1)
    (hnd : ((ds ++ cs).map Prod.fst).Nodup)
    (hsum : (ds.map Prod.snd).sum + (cs.map Prod.snd).sum = 0) :
    (∀ p ∈ ds, netFrom p.1 (settleLoop parts ds cs) = -p.2) ∧
    (∀ p ∈ cs, netTo p.1 (settleLoop parts ds cs) = p.2) := by
  revert hd hc hlook hnd hsum
  induction ds, cs using settleLoop.induct parts with
  | case1 cs =>
    intro hd hc hlook hnd hsum
    rcases eq_or_ne cs [] with rfl | hne
    · simp [settleLoop]
    · exfalso
      have := sum_pos_of_all_pos cs hc hne
      simp only [List.map_nil, List.sum_nil, zero_add] at hsum
      omega
  | case2 d ds =>
    intro hd hc hlook hnd hsum
    exfalso
    have := sum_neg_of_all_neg (d :: ds) hd (by simp)
    simp only [List.map_nil, List.sum_nil, add_zero] at hsum
    omega
  | case3 d ds c cs ih =>
    intro hd hc hlook hnd hsum
    have hd0 : d.2 < 0 := hd d (by simp)
    have hc0 : 0 < c.2 := hc c (by simp)
    have habs : |d.2| = -d.2 := abs_of_neg hd0
    have hminle1 : min |d.2| c.2 ≤ |d.2| := min_le_left _ _
    have hminle2 : min |d.2| c.2 ≤ c.2 := min_le_right _ _
    have hmin : min |d.2| c.2 = |d.2| ∨ min |d.2| c.2 = c.2 := min_choice _ _
    have hlookd : dictGet parts d.1 "Unknown" = d.1 := hlook d (by simp)
    have hlookc : dictGet parts c.1 "Unknown" = c.1 := hlook c (by simp)
    -- distinctness facts
    have hndflat : d.1 ∉ (ds.map Prod.fst ++ (c.1 :: cs.map Prod.fst)) ∧
        ((ds.map Prod.fst ++ (c.1 :: cs.map Prod.fst))).Nodup := by
      have : ((d :: ds ++ c :: cs).map Prod.fst) =
          d.1 :: (ds.map Prod.fst ++ (c.1 :: cs.map Prod.fst)) := by
        simp
      rw [this] at hnd
      exact List.nodup_cons.mp hnd
    have hcnotds : c.1 ∉ ds.map Prod.fst ∧ c.1 ∉ cs.map Prod.fst := by
      have h2 := hndflat.2
      rw [List.nodup_append] at h2
      obtain ⟨_, h3, h4⟩ := h2
      constructor
      · intro hmem
        exact h4 hmem (by simp)
      · exact (List.nodup_cons.mp h3).1
    have hdne_c : d.1 ≠ c.1 := fun h => hndflat.1 (h ▸ (by simp))
    have hd_not_ds : d.1 ∉ ds.map Prod.fst := fun h => hndflat.1 (List.mem_append_left _ h)
    have hd_not_cs : d.1 ∉ cs.map Prod.fst := fun h =>
      hndflat.1 (List.mem_append_right _ (List.mem_cons_of_mem _ h))
    rw [settleLoop]
    by_cases h1 : |d.2 + min |d.2| c.2| < 1 <;> by_cases h2 : c.2 - min |d.2| c.2 < 1 <;>
      [rw [dif_pos h1, dif_pos h2] at ih; rw [dif_pos h1, dif_neg h2] at ih;
        rw [dif_neg h1, dif_pos h2] at ih; rw [dif_neg h1, dif_neg h2] at ih] <;>
      [rw [if_pos h1, if_pos h2]; rw [if_pos h1, if_neg h2];
        rw [if_neg h1, if_pos h2]; rw [if_neg h1, if_neg h2]]
    -- case: both retire
    · have hdz : d.2 + min |d.2| c.2 = 0 := by
        rcases abs_cases (d.2 + min |d.2| c.2) with ⟨hA, _⟩ | ⟨hA, _⟩ <;> omega
      have hcz : c.2 - min |d.2| c.2 = 0 := by omega
      obtain ⟨ihd, ihc⟩ := ih
        (fun p hp => hd p (List.mem_cons_of_mem _ hp))
        (fun p hp => hc p (List.mem_cons_of_mem _ hp))
        (fun p hp => hlook p (by
          rcases List.mem_append.mp hp with h | h
          · exact List.mem_append_left _ (List.mem_cons_of_mem _ h)
          · exact List.mem_append_right _ (List.mem_cons_of_mem _ h)))
        (by
          have hsub : (ds ++ cs).map Prod.fst =
              ds.map Prod.fst ++ cs.map Prod.fst := by simp
          rw [hsub]
          have h3 := hndflat.2
          rw [List.nodup_append] at h3 ⊢
          obtain ⟨ha, hb, hdisj⟩ := h3
          exact ⟨ha, (List.nodup_cons.mp hb).2,
            fun {a} haa hbb => hdisj haa (List.mem_cons_of_mem _ hbb)⟩)
        (by
          simp only [List.map_cons, List.sum_cons] at hsum
          omega)
      constructor
      · intro p hp
        rcases List.mem_cons.mp hp with rfl | hp'
        · rw [netFrom_cons]
          show (if dictGet parts p.1 "Unknown" = p.1 then min |p.2| c.2 else 0) +
            netFrom p.1 (settleLoop parts ds cs) = -p.2
          rw [if_pos hlookd, netFrom_eq_zero]
          · omega
          · intro s hs hcon
            obtain ⟨⟨dd, hdd, he⟩, _⟩ := settleLoop_payers parts ds cs s hs
            rw [hcon] at he
            have : dd.1 = p.1 := by
              rw [hlook dd (List.mem_append_left _ (List.mem_cons_of_mem _ hdd))] at he
              exact he.symm
            exact hd_not_ds (this ▸ List.mem_map_of_mem Prod.fst hdd)
        · rw [netFrom_cons]
          show (if dictGet parts d.1 "Unknown" = p.1 then min |d.2| c.2 else 0) +
            netFrom p.1 (settleLoop parts ds cs) = -p.2
          rw [if_neg (by
            rw [hlookd]
            intro h
            exact hd_not_ds (h ▸ List.mem_map_of_mem Prod.fst hp')), ihd p hp']
          omega
      · intro p hp
        rcases List.mem_cons.mp hp with rfl | hp'
        · rw [netTo_cons]
          show (if dictGet parts p.1 "Unknown" = p.1 then min |d.2| p.2 else 0) +
            netTo p.1 (settleLoop parts ds cs) = p.2
          rw [if_pos hlookc, netTo_eq_zero]
          · omega
          · intro s hs hcon
            obtain ⟨_, ⟨cc, hcc, he⟩⟩ := settleLoop_payers parts ds cs s hs
            rw [hcon] at he
            have : cc.1 = p.1 := by
              rw [hlook cc (List.mem_append_right _ (List.mem_cons_of_mem _ hcc))] at he
              exact he.symm
            exact hcnotds.2 (this ▸ List.mem_map_of_mem Prod.fst hcc)
        · rw [netTo_cons]
          show (if dictGet parts c.1 "Unknown" = p.1 then min |d.2| c.2 else 0) +
            netTo p.1 (settleLoop parts ds cs) = p.2
          rw [if_neg (by
            rw [hlookc]
            intro h
            exact hcnotds.2 (h ▸ List.mem_map_of_mem Prod.fst hp')), ihc p hp']
          omega
    -- case: debtor retires, creditor keeps residue
    · have hdz : d.2 + min |d.2| c.2 = 0 := by
        rcases abs_cases (d.2 + min |d.2| c.2) with ⟨hA, _⟩ | ⟨hA, _⟩ <;> omega
      obtain ⟨ihd, ihc⟩ := ih
        (fun p hp => hd p (List.mem_cons_of_mem _ hp))
        (by
          intro p hp
          rcases List.mem_cons.mp hp with rfl | hp'
          · show (0 : Int) < c.2 - min |d.2| c.2
            omega
          · exact hc p (List.mem_cons_of_mem _ hp'))
        (by
          intro p hp
          rcases List.mem_append.mp hp with h | h
          · exact hlook p (List.mem_append_left _ (List.mem_cons_of_mem _ h))
          · rcases List.mem_cons.mp h with rfl | h'
            · exact hlookc
            · exact hlook p (List.mem_append_right _ (List.mem_cons_of_mem _ h')))
        (by
          have heq : ((ds ++ (c.1, c.2 - min |d.2| c.2) :: cs).map Prod.fst) =
              ds.map Prod.fst ++ (c.1 :: cs.map Prod.fst) := by simp
          rw [heq]
          exact hndflat.2)
        (by
          simp only [List.map_cons, List.sum_cons] at hsum ⊢
          omega)
      constructor
      · intro p hp
        rcases List.mem_cons.mp hp with rfl | hp'
        · rw [netFrom_cons]
          show (if dictGet parts p.1 "Unknown" = p.1 then min |p.2| c.2 else 0) +
            netFrom p.1 (settleLoop parts ds ((c.1, c.2 - min |p.2| c.2) :: cs)) = -p.2
          rw [if_pos hlookd, netFrom_eq_zero]
          · omega
          · intro s hs hcon
            obtain ⟨⟨dd, hdd, he⟩, _⟩ := settleLoop_payers parts _ _ s hs
            rw [hcon] at he
            have : dd.1 = p.1 := by
              rw [hlook dd (List.mem_append_left _ (List.mem_cons_of_mem _ hdd))] at he
              exact he.symm
            exact hd_not_ds (this ▸ List.mem_map_of_mem Prod.fst hdd)
        · rw [netFrom_cons]
          show (if dictGet parts d.1 "Unknown" = p.1 then min |d.2| c.2 else 0) +
            netFrom p.1 (settleLoop parts ds ((c.1, c.2 - min |d.2| c.2) :: cs)) = -p.2
          rw [if_neg (by
            rw [hlookd]
            intro h
            exact hd_not_ds (h ▸ List.mem_map_of_mem Prod.fst hp')), ihd p hp']
          omega
      · intro p hp
        rcases List.mem_cons.mp hp with rfl | hp'
        · rw [netTo_cons]
          show (if dictGet parts p.1 "Unknown" = p.1 then min |d.2| p.2 else 0) +
            netTo p.1 (settleLoop parts ds ((p.1, p.2 - min |d.2| p.2) :: cs)) = p.2
          rw [if_pos hlookc]
          have := ihc (p.1, p.2 - min |d.2| p.2) (by simp)
          rw [this]
          omega
        · rw [netTo_cons]
          show (if dictGet parts c.1 "Unknown" = p.1 then min |d.2| c.2 else 0) +
            netTo p.1 (settleLoop parts ds ((c.1, c.2 - min |d.2| c.2) :: cs)) = p.2
          rw [if_neg (by
            rw [hlookc]
            intro h
            exact hcnotds.2 (h ▸ List.mem_map_of_mem Prod.fst hp')),
            ihc p (List.mem_cons_of_mem _ hp')]
          omega
    -- case: creditor retires, debtor keeps residue
    · have hcz : c.2 - min |d.2| c.2 = 0 := by omega
      have hdneg : d.2 + min |d.2| c.2 < 0 := by
        rcases abs_cases (d.2 + min |d.2| c.2) with ⟨hA, _⟩ | ⟨hA, _⟩ <;> omega
      obtain ⟨ihd, ihc⟩ := ih
        (by
          intro p hp
          rcases List.mem_cons.mp hp with rfl | hp'
          · exact hdneg
          · exact hd p (List.mem_cons_of_mem _ hp'))
        (fun p hp => hc p (List.mem_cons_of_mem _ hp))
        (by
          intro p hp
          rcases List.mem_append.mp hp with h | h
          · rcases List.mem_cons.mp h with rfl | h'
            · exact hlookd
            · exact hlook p (List.mem_append_left _ (List.mem_cons_of_mem _ h'))
          · exact hlook p (List.mem_append_right _ (List.mem_cons_of_mem _ h)))
        (by
          have heq : (((d.1, d.2 + min |d.2| c.2) :: ds ++ cs).map Prod.fst) =
              d.1 :: (ds.map Prod.fst ++ cs.map Prod.fst) := by simp
          rw [heq, List.nodup_cons]
          constructor
          · intro h
            rcases List.mem_append.mp h with h' | h'
            · exact hd_not_ds h'
            · exact hd_not_cs h'
          · have h3 := hndflat.2
            rw [List.nodup_append] at h3 ⊢
            obtain ⟨ha, hb, hdisj⟩ := h3
            exact ⟨ha, (List.nodup_cons.mp hb).2,
              fun {a} haa hbb => hdisj haa (List.mem_cons_of_mem _ hbb)⟩)
        (by
          simp only [List.map_cons, List.sum_cons] at hsum ⊢
          omega)
      constructor
      · intro p hp
        rcases List.mem_cons.mp hp with rfl | hp'
        · rw [netFrom_cons]
          show (if dictGet parts p.1 "Unknown" = p.1 then min |p.2| c.2 else 0) +
            netFrom p.1 (settleLoop parts ((p.1, p.2 + min |p.2| c.2) :: ds) cs) = -p.2
          rw [if_pos hlookd]
          have := ihd (p.1, p.2 + min |p.2| c.2) (by simp)
          rw [this]
          omega
        · rw [netFrom_cons]
          show (if dictGet parts d.1 "Unknown" = p.1 then min |d.2| c.2 else 0) +
            netFrom p.1 (settleLoop parts ((d.1, d.2 + min |d.2| c.2) :: ds) cs) = -p.2
          rw [if_neg (by
            rw [hlookd]
            intro h
            exact hd_not_ds (h ▸ List.mem_map_of_mem Prod.fst hp')),
            ihd p (List.mem_cons_of_mem _ hp')]
          omega
      · intro p hp
        rcases List.mem_cons.mp hp with rfl | hp'
        · rw [netTo_cons]
          show (if dictGet parts p.1 "Unknown" = p.1 then min |d.2| p.2 else 0) +
            netTo p.1 (settleLoop parts ((d.1, d.2 + min |d.2| p.2) :: ds) cs) = p.2
          rw [if_pos hlookc, netTo_eq_zero]
          · omega
          · intro s hs hcon
            obtain ⟨_, ⟨cc, hcc, he⟩⟩ := settleLoop_payers parts _ _ s hs
            rw [hcon] at he
            have : cc.1 = p.1 := by
              rw [hlook cc (List.mem_append_right _ (List.mem_cons_of_mem _ hcc))] at he
              exact he.symm
            exact hcnotds.2 (this ▸ List.mem_map_of_mem Prod.fst hcc)
        · rw [netTo_cons]
          show (if dictGet parts c.1 "Unknown" = p.1 then min |d.2| c.2 else 0) +
            netTo p.1 (settleLoop parts ((d.1, d.2 + min |d.2| c.2) :: ds) cs) = p.2
          rw [if_neg (by
            rw [hlookc]
            intro h
            exact hcnotds.2 (h ▸ List.mem_map_of_mem Prod.fst hp')),
            ihc p hp']
          omega
    -- case: neither retires (impossible)
    · exfalso
      rcases abs_cases (d.2 + min |d.2| c.2) with ⟨hA, _⟩ | ⟨hA, _⟩ <;> omega

theorem dictGet_id (bal : List (String × Int)) (x : String)
    (hx : x ∈ bal.map Prod.fst) :
    dictGet (bal.map (fun p => (p.1, p.1))) x "Unknown" = x := by
  induction bal with
  | nil => simp at hx
  | cons b t ih =>
    by_cases h : b.1 = x
    · unfold dictGet
      rw [List.map_cons, List.find?_cons_of_pos _ (by simpa using h)]
      exact h
    · have hx' : x ∈ t.map Prod.fst := by
        rw [List.map_cons] at hx
        rcases List.mem_cons.mp hx with h' | h'
        · exact absurd h'.symm h
        · exact h'
      unfold dictGet at ih ⊢
      rw [List.map_cons, List.find?_cons_of_neg _ (by simpa using h)]
      exact ih hx'

theorem eq_of_mem_of_fst_eq (bal : List (String × Int))
    (hnd : (bal.map Prod.fst).Nodup) (p q : String × Int)
    (hp : p ∈ bal) (hq : q ∈ bal) (h : p.1 = q.1) : p = q := by
  induction bal with
  | nil => simp at hp
  | cons b t ih =>
    have hnd2 := List.nodup_cons.mp (by simpa only [List.map_cons] using hnd)
    rcases List.mem_cons.mp hp with rfl | hp' <;> rcases List.mem_cons.mp hq with rfl | hq'
    · rfl
    · exact absurd (by rw [h]; exact List.mem_map_of_mem Prod.fst hq') hnd2.1
    · exact absurd (by rw [← h]; exact List.mem_map_of_mem Prod.fst hp') hnd2.1
    · exact ih hnd2.2 hp' hq'

theorem sum_filter_partition (bal : List (String × Int)) :
    (bal.map Prod.snd).sum =
      ((bal.filter (fun p => p.2 < 0)).map Prod.snd).sum +
        ((bal.filter (fun p => 0 < p.2)).map Prod.snd).sum := by
  induction bal with
  | nil => simp
  | cons b t ih =>
    simp only [List.map_cons, List.sum_cons, List.filter_cons]
    rcases lt_trichotomy b.2 0 with h | h | h
    · rw [if_pos (by simp [h]), if_neg (by simp; omega)]
      simp only [List.map_cons, List.sum_cons]
      omega
    · rw [if_neg (by simp; omega), if_neg (by simp; omega)]
      omega
    · rw [if_neg (by simp; omega), if_pos (by simp [h])]
      simp only [List.map_cons, List.sum_cons]
      omega

theorem applySettlements_eq (l : List Settlement) (bal : List (String × Int)) :
    applySettlements l bal =
      bal.map (fun p => (p.1, p.2 + netFrom p.1 l - netTo p.1 l)) := by
  induction l generalizing bal with
  | nil =>
    show bal = _
    have h0 : ∀ p : String × Int, (p.1, p.2 + netFrom p.1 [] - netTo p.1 []) = p := by
      intro p
      show (p.1, p.2 + 0 - 0) = p
      simp
    simp only [h0, List.map_id']
  | cons s t ih =>
    show applySettlements t (bump s.to_ (-s.amount) (bump s.from_ s.amount bal)) = _
    rw [ih]
    unfold bump
    rw [List.map_map, List.map_map]
    apply List.map_congr_left
    intro p _
    simp only [Function.comp_apply]
    rw [netFrom_cons, netTo_cons]
    by_cases hf : p.1 = s.from_ <;> by_cases ht : p.1 = s.to_
    · have hfe : s.from_ = s.to_ := hf.symm.trans ht
      simp only [hf, hfe, beq_self_eq_true, if_true, Prod.mk.injEq, true_and]
      ring
    · have hne : s.from_ ≠ s.to_ := fun hh => ht (hf.trans hh)
      simp only [hf, beq_self_eq_true, if_true, beq_iff_eq, if_neg hne,
        if_neg (Ne.symm hne), if_pos rfl, Prod.mk.injEq, true_and]
      ring
    · have hne : s.to_ ≠ s.from_ := fun hh => hf (ht.trans hh)
      simp only [ht, beq_iff_eq, if_neg hne, beq_self_eq_true, if_true,
        if_neg (Ne.symm hne), if_pos rfl, Prod.mk.injEq, true_and]
      ring
    · have h1 : s.from_ ≠ p.1 := fun hh => hf hh.symm
      have h2 : s.to_ ≠ p.1 := fun hh => ht hh.symm
      simp only [beq_iff_eq, if_neg hf, if_neg ht, if_neg h1, if_neg h2,
        Prod.mk.injEq, true_and]
      ring

/-- C8: for a zero-sum integer balances mapping with distinct participant
identifiers (names mapping each identifier to itself, so settlements are
id-labelled), applying every emitted settlement — payer's balance rises by the
paid amount, payee's falls by the received amount — and re-running
`resolve_debts` on the result yields an empty settlement list. -/
theorem C8_idempotence (balances : List (String × Int))
    (hnd : (balances.map Prod.fst).Nodup)
    (hsum : (balances.map Prod.snd).sum = 0) :
    resolve_debts
      (applySettlements (resolve_debts balances (balances.map (fun p => (p.1, p.1))))
        balances)
      (balances.map (fun p => (p.1, p.1))) = [] := by
  have hmem_ds : ∀ p ∈ List.insertionSort debtLE (balances.filter (fun q => q.2 < 0)),
      p ∈ balances ∧ p.2 < 0 := by
    intro p hp
    have h2 := List.mem_filter.mp ((List.perm_insertionSort debtLE _).mem_iff.mp hp)
    exact ⟨h2.1, by simpa using h2.2⟩
  have hmem_cs : ∀ p ∈ List.insertionSort credLE (balances.filter (fun q => 0 < q.2)),
      p ∈ balances ∧ 0 < p.2 := by
    intro p hp
    have h2 := List.mem_filter.mp ((List.perm_insertionSort credLE _).mem_iff.mp hp)
    exact ⟨h2.1, by simpa using h2.2⟩
  have hlook : ∀ p ∈ (List.insertionSort debtLE (balances.filter (fun q => q.2 < 0)) ++
      List.insertionSort credLE (balances.filter (fun q => 0 < q.2))),
      dictGet (balances.map (fun p => (p.1, p.1))) p.1 "Unknown" = p.1 := by
    intro p hp
    rcases List.mem_append.mp hp with h | h
    · exact dictGet_id balances p.1 (List.mem_map_of_mem Prod.fst (hmem_ds p h).1)
    · exact dictGet_id balances p.1 (List.mem_map_of_mem Prod.fst (hmem_cs p h).1)
  have hnd2 : (((List.insertionSort debtLE (balances.filter (fun q => q.2 < 0)) ++
      List.insertionSort credLE (balances.filter (fun q => 0 < q.2)))).map Prod.fst).Nodup := by
    have hpermdc : (List.insertionSort debtLE (balances.filter (fun q => q.2 < 0)) ++
        List.insertionSort credLE (balances.filter (fun q => 0 < q.2))).Perm
        (balances.filter (fun q => q.2 < 0) ++ balances.filter (fun q => 0 < q.2)) :=
      (List.perm_insertionSort debtLE _).append (List.perm_insertionSort credLE _)
    rw [(hpermdc.map Prod.fst).nodup_iff]
    rw [List.map_append, List.nodup_append]
    refine ⟨hnd.sublist ((List.filter_sublist balances).map Prod.fst), ?_, ?_⟩
    · exact hnd.sublist ((List.filter_sublist balances).map Prod.fst)
    · intro a ha1 ha2
      obtain ⟨p, hp1, hp2⟩ := List.mem_map.mp ha1
      obtain ⟨q, hq1, hq2⟩ := List.mem_map.mp ha2
      have hpb := List.mem_filter.mp hp1
      have hqb := List.mem_filter.mp hq1
      have hpq := eq_of_mem_of_fst_eq balances hnd p q hpb.1 hqb.1 (by rw [hp2, hq2])
      have h3 : p.2 < 0 := by simpa using hpb.2
      have h4 : 0 < q.2 := by simpa using hqb.2
      rw [hpq] at h3
      omega
  have hsum2 : ((List.insertionSort debtLE (balances.filter (fun q => q.2 < 0))).map
        Prod.snd).sum +
      ((List.insertionSort credLE (balances.filter (fun q => 0 < q.2))).map Prod.snd).sum
        = 0 := by
    rw [((List.perm_insertionSort debtLE _).map Prod.snd).sum_eq,
      ((List.perm_insertionSort credLE _).map Prod.snd).sum_eq]
    have := sum_filter_partition balances
    omega
  obtain ⟨hFrom, hTo⟩ := settleLoop_nets (balances.map (fun p => (p.1, p.1)))
    (List.insertionSort debtLE (balances.filter (fun q => q.2 < 0)))
    (List.insertionSort credLE (balances.filter (fun q => 0 < q.2)))
    (fun p hp => (hmem_ds p hp).2) (fun p hp => (hmem_cs p hp).2) hlook hnd2 hsum2
  have hstl : resolve_debts balances (balances.map (fun p => (p.1, p.1))) =
      settleLoop (balances.map (fun p => (p.1, p.1)))
        (List.insertionSort debtLE (balances.filter (fun q => q.2 < 0)))
        (List.insertionSort credLE (balances.filter (fun q => 0 < q.2))) := rfl
  have happ : ∀ q ∈ applySettlements
      (resolve_debts balances (balances.map (fun p => (p.1, p.1)))) balances, q.2 = 0 := by
    intro q hq
    rw [applySettlements_eq] at hq
    obtain ⟨p, hpmem, rfl⟩ := List.mem_map.mp hq
    show p.2 + netFrom p.1 (resolve_debts balances (balances.map (fun p => (p.1, p.1))))
      - netTo p.1 (resolve_debts balances (balances.map (fun p => (p.1, p.1)))) = 0
    rw [hstl]
    rcases lt_trichotomy p.2 0 with hneg | hzero | hpos
    · have hpds : p ∈ List.insertionSort debtLE (balances.filter (fun q => q.2 < 0)) :=
        (List.perm_insertionSort debtLE _).mem_iff.mpr
          (List.mem_filter.mpr ⟨hpmem, by simpa using hneg⟩)
      rw [hFrom p hpds, netTo_eq_zero _ _ ?_]
      · ring
      · intro s hs hcon
        obtain ⟨_, ⟨c, hc2, he⟩⟩ := settleLoop_payers _ _ _ s hs
        rw [hlook c (List.mem_append_right _ hc2)] at he
        have hc1 : c.1 = p.1 := by rw [← he, hcon]
        have hcbal := hmem_cs c hc2
        have hcp := eq_of_mem_of_fst_eq balances hnd c p hcbal.1 hpmem hc1
        have h3 := hcbal.2
        rw [hcp] at h3
        omega
    · rw [netFrom_eq_zero _ _ ?_, netTo_eq_zero _ _ ?_]
      · omega
      · intro s hs hcon
        obtain ⟨_, ⟨c, hc2, he⟩⟩ := settleLoop_payers _ _ _ s hs
        rw [hlook c (List.mem_append_right _ hc2)] at he
        have hc1 : c.1 = p.1 := by rw [← he, hcon]
        have hcbal := hmem_cs c hc2
        have hcp := eq_of_mem_of_fst_eq balances hnd c p hcbal.1 hpmem hc1
        have h3 := hcbal.2
        rw [hcp] at h3
        omega
      · intro s hs hcon
        obtain ⟨⟨d, hd2, he⟩, _⟩ := settleLoop_payers _ _ _ s hs
        rw [hlook d (List.mem_append_left _ hd2)] at he
        have hd1 : d.1 = p.1 := by rw [← he, hcon]
        have hdbal := hmem_ds d hd2
        have hdp := eq_of_mem_of_fst_eq balances hnd d p hdbal.1 hpmem hd1
        have h3 := hdbal.2
        rw [hdp] at h3
        omega
    · have hpcs : p ∈ List.insertionSort credLE (balances.filter (fun q => 0 < q.2)) :=
        (List.perm_insertionSort credLE _).mem_iff.mpr
          (List.mem_filter.mpr ⟨hpmem, by simpa using hpos⟩)
      rw [hTo p hpcs, netFrom_eq_zero _ _ ?_]
      · ring
      · intro s hs hcon
        obtain ⟨⟨d, hd2, he⟩, _⟩ := settleLoop_payers _ _ _ s hs
        rw [hlook d (List.mem_append_left _ hd2)] at he
        have hd1 : d.1 = p.1 := by rw [← he, hcon]
        have hdbal := hmem_ds d hd2
        have hdp := eq_of_mem_of_fst_eq balances hnd d p hdbal.1 hpmem hd1
        have h3 := hdbal.2
        rw [hdp] at h3
        omega
  have hf1 : (applySettlements
      (resolve_debts balances (balances.map (fun p => (p.1, p.1)))) balances).filter
        (fun q => q.2 < 0) = [] := by
    rw [List.filter_eq_nil]
    intro q hq
    have := happ q hq
    simp [this]
  have hf2 : (applySettlements
      (resolve_debts balances (balances.map (fun p => (p.1, p.1)))) balances).filter
        (fun q => 0 < q.2) = [] := by
    rw [List.filter_eq_nil]
    intro q hq
    have := happ q hq
    simp [this]
  show settleLoop _ (List.insertionSort debtLE _) (List.insertionSort credLE _) = []
  rw [hf1, hf2]
  simp [settleLoop, List.insertionSort]

/-- Witness for `C8_idempotence` at the spec's example balances
`{a: -50, b: -30, c: 80}`. -/
theorem C8_witness :
    resolve_debts
      (applySettlements
        (resolve_debts [("a", -50), ("b", -30), ("c", 80)]
          (([("a", -50), ("b", -30), ("c", 80)] : List (String × Int)).map
            (fun p => (p.1, p.1))))
        [("a", -50), ("b", -30), ("c", 80)])
      (([("a", -50), ("b", -30), ("c", 80)] : List (String × Int)).map
        (fun p => (p.1, p.1))) = [] :=
  C8_idempotence [("a", -50), ("b", -30), ("c", 80)] (by decide) (by decide)

/-! ### Validation behavior -/

theorem applyExtras_error (idxs : List Nat) (r : Nat) (res : List Int) (e : NormError)
    (h : applyExtras idxs r res = .error e) : e = .indexError := by
  induction idxs generalizing r res with
  | nil =>
    cases r with
    | zero => cases h
    | succ r =>
      have : NormError.indexError = e := by
        injection h
      exact this.symm
  | cons i rest ih =>
    cases r with
    | zero => cases h
    | succ r => exact ih r (incAt i res) h

/-- C6: with a non-empty input and non-zero total, `normalize_shares` raises a
validation error exactly when the splits disagree on `shareType`, or
(amount-type) an explicit amount is missing or they do not sum to the total,
or (percentage-type) the percentage sum deviates from 100 by more than
`tolerance`, or (weight-type) the weight sum is non-positive, or the
`shareType` tag is unknown; a zero total short-circuits to all zeros and an
empty input to the empty list. -/
theorem C6_validation (splits : List Split) (T : Int) :
    (splits = [] → normalize_shares splits T = .ok []) ∧
    (splits ≠ [] → T = 0 → normalize_shares splits T = .ok (List.replicate splits.length 0)) ∧
    (∀ s0 rest, splits = s0 :: rest → T ≠ 0 →
      ((∃ e, normalize_shares splits T = .error e ∧ e.isValidation = true) ↔
        (¬ ∀ s ∈ splits, s.shareType = s0.shareType) ∨
        (s0.shareType = "amount" ∧
          ((∃ s ∈ splits, s.amount = none) ∨
            (splits.map (fun s => s.amount.getD 0)).sum ≠ T)) ∨
        (s0.shareType = "percentage" ∧
          |((splits.map (fun s => s.share)).sum) - 100| > tolerance) ∨
        (s0.shareType = "weight" ∧ (splits.map (fun s => s.share)).sum ≤ 0) ∨
        (s0.shareType ≠ "equal" ∧ s0.shareType ≠ "percentage" ∧
          s0.shareType ≠ "weight" ∧ s0.shareType ≠ "amount"))) := by
  refine ⟨?_, ?_, ?_⟩
  · intro h
    subst h
    rfl
  · intro hne h0
    subst h0
    cases splits with
    | nil => exact absurd rfl hne
    | cons s0 rest =>
      simp only [normalize_shares]
      rw [if_pos trivial]
  · intro s0 rest hsp hT
    subst hsp
    have hpermss : ((stableEnum (s0 :: rest)).map Prod.snd).Perm (s0 :: rest) :=
      stableEnum_snd_perm _
    have hsum_sh : (((stableEnum (s0 :: rest)).map Prod.snd).map (fun s => s.share)).sum =
        ((s0 :: rest).map (fun s => s.share)).sum :=
      (hpermss.map (fun s => s.share)).sum_eq
    have hsum_amt :
        (((stableEnum (s0 :: rest)).map Prod.snd).map (fun s => s.amount.getD 0)).sum =
        ((s0 :: rest).map (fun s => s.amount.getD 0)).sum :=
      (hpermss.map (fun s => s.amount.getD 0)).sum_eq
    have hmiss_iff :
        (((stableEnum (s0 :: rest)).map Prod.snd).filter
            (fun s => s.amount.isNone)).length ≠ 0 ↔
          ∃ s ∈ s0 :: rest, s.amount = none := by
      rw [Ne, List.length_eq_zero]
      constructor
      · intro h
        rcases List.exists_mem_of_ne_nil _ (fun hnil => h hnil) with ⟨s, hs⟩
        have h2 := List.mem_filter.mp hs
        exact ⟨s, hpermss.mem_iff.mp h2.1, by simpa using h2.2⟩
      · rintro ⟨s, hs, hnone⟩ hcon
        rw [List.filter_eq_nil] at hcon
        exact hcon s (hpermss.mem_iff.mpr hs) (by simp [hnone])
    constructor
    · rintro ⟨e, he, hv⟩
      simp only [normalize_shares] at he
      rw [if_neg hT] at he
      by_cases hall : ((s0 :: rest).all fun s => s.shareType == s0.shareType) = true
      · rw [if_pos hall] at he
        have hbr : branchNormalize s0.shareType
            ((stableEnum (s0 :: rest)).map Prod.snd) T = .error e := by
          cases hb : branchNormalize s0.shareType
              ((stableEnum (s0 :: rest)).map Prod.snd) T with
          | ok a =>
            rw [hb] at he
            simp only [Except.map] at he
            cases he
          | error e2 =>
            rw [hb] at he
            simp only [Except.map] at he
            cases he
            rfl
        unfold branchNormalize at hbr
        by_cases h1 : s0.shareType = "equal"
        · rw [if_pos h1] at hbr
          cases hbr
        · rw [if_neg h1] at hbr
          by_cases h2 : s0.shareType = "percentage"
          · rw [if_pos h2] at hbr
            unfold _normalize_percentage at hbr
            by_cases h3 : |(( ((stableEnum (s0 :: rest)).map Prod.snd).map
                (fun s => s.share)).sum : ℚ) - 100| > tolerance
            · refine Or.inr (Or.inr (Or.inl ⟨h2, ?_⟩))
              rw [← hsum_sh]
              exact h3
            · rw [if_neg h3] at hbr
              have := applyExtras_error _ _ _ _ hbr
              rw [this] at hv
              cases hv
          · rw [if_neg h2] at hbr
            by_cases h4 : s0.shareType = "weight"
            · rw [if_pos h4] at hbr
              unfold _normalize_weight at hbr
              by_cases h5 : (( ((stableEnum (s0 :: rest)).map Prod.snd).map
                  (fun s => s.share)).sum : ℚ) ≤ 0
              · refine Or.inr (Or.inr (Or.inr (Or.inl ⟨h4, ?_⟩)))
                rw [← hsum_sh]
                exact h5
              · rw [if_neg h5] at hbr
                have := applyExtras_error _ _ _ _ hbr
                rw [this] at hv
                cases hv
            · rw [if_neg h4] at hbr
              by_cases h6 : s0.shareType = "amount"
              · rw [if_pos h6] at hbr
                unfold _normalize_amount at hbr
                by_cases h7 : (((stableEnum (s0 :: rest)).map Prod.snd).filter
                    (fun s => s.amount.isNone)).length ≠ 0
                · exact Or.inr (Or.inl ⟨h6, Or.inl (hmiss_iff.mp h7)⟩)
                · rw [if_neg h7] at hbr
                  by_cases h8 : (((stableEnum (s0 :: rest)).map Prod.snd).map
                      (fun s => s.amount.getD 0)).sum ≠ T
                  · refine Or.inr (Or.inl ⟨h6, Or.inr ?_⟩)
                    rw [← hsum_amt]
                    exact h8
                  · rw [if_neg h8] at hbr
                    cases hbr
              · rw [if_neg h6] at hbr
                exact Or.inr (Or.inr (Or.inr (Or.inr ⟨h1, h2, h4, h6⟩)))
      · left
        intro hcontra
        apply hall
        rw [List.all_eq_true]
        intro s hs
        simpa using hcontra s hs
    · intro hrhs
      simp only [normalize_shares]
      rw [if_neg hT]
      by_cases hall : ((s0 :: rest).all fun s => s.shareType == s0.shareType) = true
      · rw [if_pos hall]
        have hallP : ∀ s ∈ s0 :: rest, s.shareType = s0.shareType := by
          rw [List.all_eq_true] at hall
          intro s hs
          simpa using hall s hs
        rcases hrhs with h | ⟨hty, hcond⟩ | ⟨hty, hcond⟩ | ⟨hty, hcond⟩ | ⟨h1, h2, h3, h4⟩
        · exact absurd hallP h
        · rcases hcond with hmiss | hsum
          · refine ⟨NormError.missingAmounts, ?_, rfl⟩
            rw [branchNormalize, if_neg (by rw [hty]; decide), if_neg (by rw [hty]; decide),
              if_neg (by rw [hty]; decide), if_pos hty]
            unfold _normalize_amount
            rw [if_pos (hmiss_iff.mpr hmiss)]
            rfl
          · by_cases h7 : (((stableEnum (s0 :: rest)).map Prod.snd).filter
                (fun s => s.amount.isNone)).length ≠ 0
            · refine ⟨NormError.missingAmounts, ?_, rfl⟩
              rw [branchNormalize, if_neg (by rw [hty]; decide), if_neg (by rw [hty]; decide),
                if_neg (by rw [hty]; decide), if_pos hty]
              unfold _normalize_amount
              rw [if_pos h7]
              rfl
            · refine ⟨NormError.amountSumMismatch, ?_, rfl⟩
              rw [branchNormalize, if_neg (by rw [hty]; decide), if_neg (by rw [hty]; decide),
                if_neg (by rw [hty]; decide), if_pos hty]
              unfold _normalize_amount
              rw [if_neg h7, if_pos (by rw [hsum_amt]; exact hsum)]
              rfl
        · refine ⟨NormError.percentSumOutOfTolerance, ?_, rfl⟩
          rw [branchNormalize, if_neg (by rw [hty]; decide), if_pos hty]
          unfold _normalize_percentage
          rw [if_pos (by rw [hsum_sh]; exact hcond)]
          rfl
        · refine ⟨NormError.nonPositiveWeight, ?_, rfl⟩
          rw [branchNormalize, if_neg (by rw [hty]; decide), if_neg (by rw [hty]; decide),
            if_pos hty]
          unfold _normalize_weight
          rw [if_pos (by rw [hsum_sh]; exact hcond)]
          rfl
        · refine ⟨NormError.unknownShareType, ?_, rfl⟩
          rw [branchNormalize, if_neg h1, if_neg h2, if_neg h3, if_neg h4]
          rfl
      · rw [if_neg hall]
        exact ⟨NormError.mismatchedShareType, rfl, rfl⟩

/-- Witness for `C6_validation`: the spec's amount-type strictness example —
explicit amounts `[40, 30, 29]` with total 100 raise a validation error. -/
theorem C6_witness :
    ∃ e, normalize_shares
        [⟨"a", "amount", 0, some 40⟩, ⟨"b", "amount", 0, some 30⟩,
          ⟨"c", "amount", 0, some 29⟩] 100 = .error e ∧ e.isValidation = true :=
  ((C6_validation
      [⟨"a", "amount", 0, some 40⟩, ⟨"b", "amount", 0, some 30⟩,
        ⟨"c", "amount", 0, some 29⟩] 100).2.2
    ⟨"a", "amount", 0, some 40⟩
    [⟨"b", "amount", 0, some 30⟩, ⟨"c", "amount", 0, some 29⟩]
    rfl (by decide)).mpr
    (Or.inr (Or.inl ⟨rfl, Or.inr (by decide)⟩))
